import Mathlib

/-!
Verification of the devel-space symlink-merge engine and job factories of
catkin_tools (src/catkin_tools/jobs/catkin.py) and of the metadata helpers
(src/catkin_tools/metadata.py), as a shallow embedding in Lean 4.

Filesystem paths are modelled as lists of components.  Python dicts are
modelled as association lists (first match wins, as for a dict with unique
keys).  The filesystem is modelled as an association list from paths to
entries, where an entry is a symlink (with its target), a regular file, or a
directory.
-/

namespace Catkin

/-- A filesystem path, as its list of components. -/
abbrev Path := List String

/-- First-match lookup in an association list (models Python dict lookup). -/
def alookup {α β : Type} [DecidableEq α] : List (α × β) → α → Option β
  | [], _ => none
  | e :: rest, k => if e.1 = k then some e.2 else alookup rest k

/-- Dict assignment: update the entry in place if the key is present,
otherwise append a new entry (models `dct[k] = v`). -/
def aset {α β : Type} [DecidableEq α] (l : List (α × β)) (k : α) (v : β) :
    List (α × β) :=
  if (alookup l k).isSome then
    l.map (fun e => if e.1 = k then (k, v) else e)
  else
    l ++ [(k, v)]

/-- Dict deletion (models `del dct[k]`). -/
def aerase {α β : Type} [DecidableEq α] (l : List (α × β)) (k : α) :
    List (α × β) :=
  l.filter (fun e => decide (e.1 ≠ k))

/-- A filesystem entry: a symbolic link with its target, a regular file, or
a directory. -/
inductive FType : Type
  | link (target : Path)
  | regular
  | directory
deriving DecidableEq, Repr

/-- The filesystem, as an association list from paths to entries. -/
abbrev FS := List (Path × FType)

/-- Lookup of a filesystem entry (models `lstat`-style access). -/
def fget (fs : FS) (p : Path) : Option FType := alookup fs p

/-- Models `os.path.exists`: follows a symlink one level, so a dangling
symlink does not exist (link targets are regular files in this model). -/
def fexists (fs : FS) (p : Path) : Bool :=
  match fget fs p with
  | none => false
  | some (FType.link t) => (fget fs t).isSome
  | some _ => true

/-- Models `os.path.islink` (true also for a dangling symlink). -/
def islink (fs : FS) (p : Path) : Bool :=
  match fget fs p with
  | some (FType.link _) => true
  | _ => false

/-- Models `os.path.realpath`, resolving a symlink one level (link targets
are real files in this model). -/
def realpath (fs : FS) (p : Path) : Path :=
  match fget fs p with
  | some (FType.link t) => t
  | _ => p

/-- Remove the entry at a path (models `os.unlink` / `os.rmdir`). -/
def fdel (fs : FS) (p : Path) : FS := aerase fs p

/-- Whether some entry lies strictly below `p` (so `rmdir p` would fail). -/
def hasStrictUnder (fs : FS) (p : Path) : Bool :=
  fs.any (fun e => p.isPrefixOf e.1 && !(e.1 == p))

/-- Whether `p` is an empty directory that `os.rmdir` would remove. -/
def isEmptyDir (fs : FS) (p : Path) : Bool :=
  fget fs p == some FType.directory && !(hasStrictUnder fs p)

/-- Recursion worker for `removedirs`; the fuel is the number of path
components, which bounds the upward walk. -/
def removedirsFuel : Nat → FS → Path → FS
  | 0, fs, _ => fs
  | fuel + 1, fs, p =>
    if p = [] then fs
    else if isEmptyDir fs p then removedirsFuel fuel (fdel fs p) p.dropLast
    else fs

/-- Models `os.removedirs` wrapped in `try ... except OSError: pass`:
remove the directory if it is empty, then walk upward removing now-empty
parent directories, stopping (silently) at the first failure. -/
def removedirs (fs : FS) (p : Path) : FS := removedirsFuel p.length fs p

/-- The devel collision ledger: Python dict from destination path to
collision count, persisted in `devel_collisions.txt`. -/
abbrev Ledger := List (Path × Nat)

/-- The "Add collisions" loop body of `clean_linked_files`: increment the
count for a destination, treating an absent entry as 0 (it becomes 1). -/
def addCollision (L : Ledger) (d : Path) : Ledger :=
  aset L d ((alookup L d).getD 0 + 1)

/-- The "Remove files that no longer collide" loop body of
`clean_linked_files`, acting on the (ledger, filesystem) pair for one
destination scheduled for removal. -/
def removeStep (dryRun : Bool) (st : Ledger × FS) (d : Path) : Ledger × FS :=
  let nCollisions := (alookup st.1 d).getD 0
  let fs' :=
    if nCollisions = 0 && !dryRun then
      if fexists st.2 d then removedirs (fdel st.2 d) d.dropLast else st.2
    else st.2
  let L' :=
    if nCollisions > 1 then aset st.1 d (nCollisions - 1)
    else if nCollisions = 1 then aerase st.1 d
    else st.1
  (L', fs')

/-- Embedding of `clean_linked_files` (catkin.py lines 79-152): load the
ledger, increment the count of every destination in `files_that_collide`,
then process every destination in `files_to_clean` (unlink when its count is
0, decrement when greater than 1, delete the entry when exactly 1), and
persist the resulting ledger unless this is a dry run.  Returns the
persisted ledger and the resulting filesystem. -/
def clean_linked_files (L : Ledger) (files_that_collide files_to_clean : List Path)
    (fs : FS) (dryRun : Bool) : Ledger × FS :=
  let L1 := files_that_collide.foldl addCollision L
  let r := files_to_clean.foldl (removeStep dryRun) (L1, fs)
  (if dryRun then L else r.1, r.2)

/-- Embedding of `DEVEL_LINK_PREBUILD_SKIPLIST` (catkin.py lines 715-718). -/
def DEVEL_LINK_PREBUILD_SKIPLIST : List Path := [[".catkin"], [".rosinstall"]]

/-- Embedding of `DEVEL_LINK_SKIPLIST` (catkin.py lines 719-733). -/
def DEVEL_LINK_SKIPLIST : List Path :=
  DEVEL_LINK_PREBUILD_SKIPLIST ++
  [["etc", "catkin", "profile.d", "05.catkin_make.bash"],
   ["etc", "catkin", "profile.d", "05.catkin_make_isolated.bash"],
   ["etc", "catkin", "profile.d", "05.catkin-test-results.sh"],
   ["env.sh"],
   ["setup.bash"],
   ["setup.fish"],
   ["setup.zsh"],
   ["setup.sh"],
   ["local_setup.bash"],
   ["local_setup.fish"],
   ["local_setup.zsh"],
   ["local_setup.sh"],
   ["_setup_util.py"]]

/-- Embedding of `DEVEL_LINK_SKIP_DIRECTORIES` (catkin.py lines 734-736). -/
def DEVEL_LINK_SKIP_DIRECTORIES : List String := ["__pycache__"]

/-- Embedding of `should_skip_file` (catkin.py lines 245-253): `relpath` is
the path of the file relative to the source devel space, as its components
(`os.path.relpath(...).split(os.path.sep)`). -/
def should_skip_file (prebuild : Bool) (relpath : Path) : Bool :=
  let skiplist :=
    if prebuild then DEVEL_LINK_PREBUILD_SKIPLIST else DEVEL_LINK_SKIPLIST
  decide (relpath ∈ skiplist) ||
    relpath.any (fun directory => decide (directory ∈ DEVEL_LINK_SKIP_DIRECTORIES))

/-- Embedding of the product-linking traversal of `link_devel_products`
(catkin.py lines 256-329), abstracted over the ordered list of
(source, destination) products that `os.walk` yields after
`should_skip_file` filtering; symlinked source directories (lines 268-284)
follow the same exists/realpath logic as files.  `content` gives the bytes
(md5-hashed in the source) of a real file.  Returns the updated merged-tree
filesystem, the collision list and the warned (content-mismatch) list, or
an error for a fatal `OSError` from `os.symlink`. -/
def linkProducts (content : Path → Nat) (fs : FS) :
    List (Path × Path) → Except Unit (FS × List Path × List Path)
  | [] => Except.ok (fs, [], [])
  | (sourceFile, destFile) :: rest =>
    if fexists fs destFile then
      if realpath fs destFile ≠ realpath fs sourceFile then
        match linkProducts content fs rest with
        | Except.error e => Except.error e
        | Except.ok (fs', collide, warned) =>
          Except.ok (fs', destFile :: collide,
            if content (realpath fs sourceFile) ≠ content (realpath fs destFile)
            then destFile :: warned else warned)
      else linkProducts content fs rest
    else
      if (fget fs destFile).isSome then Except.error ()
      else linkProducts content (fs ++ [(destFile, FType.link sourceFile)]) rest

/-- Embedding of `link_devel_products` (catkin.py lines 214-363): link the
products, diff the new product list against the old persisted manifest to
find destinations to clean, run `clean_linked_files` with the collected
collisions, and persist the new manifest (which lists exactly the products).
Destination directory creation via `os.mkdir` (lines 285-291) yields no
products and no ledger traffic and is omitted.  Returns the merged-tree
filesystem, the persisted ledger, the persisted manifest products and the
warned destinations. -/
def link_devel_products (content : Path → Nat) (fs : FS) (ledger : Ledger)
    (products : List (Path × Path))
    (oldManifest : Option (List (Path × Path))) :
    Except Unit (FS × Ledger × List (Path × Path) × List Path) :=
  match linkProducts content fs products with
  | Except.error e => Except.error e
  | Except.ok (fs1, files_that_collide, warned) =>
    let files_to_clean : List Path :=
      match oldManifest with
      | none => []
      | some old => (old.filter (fun pr => decide (pr ∉ products))).map Prod.snd
    let r := clean_linked_files ledger files_that_collide files_to_clean fs1 false
    Except.ok (r.2, r.1, products, warned)

/-- Result of scanning a devel manifest during `unlink_devel_products`:
either a consistency fault (a listed destination exists but is not a
symlink) or the warned (already absent) and to-clean destinations. -/
inductive ScanResult : Type
  | fault
  | ok (warnings toClean : List Path)
deriving DecidableEq, Repr

/-- Embedding of the manifest-reading loop of `unlink_devel_products`
(catkin.py lines 189-205): a destination that does not exist is a warning,
a destination that exists but is not a symlink is a fault aborting the
whole operation, and any other destination is scheduled for cleaning.
(The realpath check on line 200 is dead code behind `False and`.) -/
def scanManifest (fs : FS) : List (Path × Path) → ScanResult
  | [] => ScanResult.ok [] []
  | (_, destFile) :: rest =>
    if !(fexists fs destFile) then
      match scanManifest fs rest with
      | ScanResult.fault => ScanResult.fault
      | ScanResult.ok w tc => ScanResult.ok (destFile :: w) tc
    else if !(islink fs destFile) then ScanResult.fault
    else
      match scanManifest fs rest with
      | ScanResult.fault => ScanResult.fault
      | ScanResult.ok w tc => ScanResult.ok w (destFile :: tc)

/-- Embedding of `unlink_devel_products` (catkin.py lines 155-211): bail out
with 0 if the private devel space is gone, with 1 if there is no manifest,
with -1 (touching nothing) on a consistency fault, and otherwise clean all
listed destinations via `clean_linked_files` with an empty collision list.
Returns (return code, filesystem, persisted ledger, warned destinations). -/
def unlink_devel_products (fs : FS) (ledger : Ledger)
    (privateDevelExists : Bool)
    (develManifest : Option (List (Path × Path))) (dryRun : Bool) :
    Int × FS × Ledger × List Path :=
  if !privateDevelExists then (0, fs, ledger, [])
  else
    match develManifest with
    | none => (1, fs, ledger, [])
    | some manifest =>
      match scanManifest fs manifest with
      | ScanResult.fault => (-1, fs, ledger, [])
      | ScanResult.ok warnings files_to_clean =>
        let r := clean_linked_files ledger [] files_to_clean fs dryRun
        (0, r.2, r.1, warnings)

/-- A package, for the merge state model: its unique name and the ordered
(source, destination) products its private devel space yields after
`should_skip_file` filtering. -/
structure Package : Type where
  name : String
  products : List (Path × Path)
deriving DecidableEq, Repr

/-- The destinations a package produces. -/
def Package.dests (P : Package) : List Path := P.products.map Prod.snd

/-- The source files of a package. -/
def Package.sources (P : Package) : List Path := P.products.map Prod.fst

/-- The merge-engine state: the merged devel tree and the package source
files (as one filesystem), the persisted collision ledger, the persisted
per-package devel manifests, plus specification-level bookkeeping of which
packages are currently merged and which package names were ever merged. -/
structure Sys : Type where
  fs : FS
  ledger : Ledger
  manifests : List (String × List (Path × Path))
  merged : List Package
  history : List String
deriving DecidableEq, Repr

/-- Run `link_devel_products` for package `P` on state `st`; on success the
specification-level `merged` set gains `P` and `history` records its name. -/
def applyMerge (content : Path → Nat) (st : Sys) (P : Package) :
    Except Unit Sys :=
  match link_devel_products content st.fs st.ledger P.products
      (alookup st.manifests P.name) with
  | Except.error e => Except.error e
  | Except.ok (fs', L', manifestProducts, _warned) =>
    Except.ok
      { fs := fs', ledger := L',
        manifests := aset st.manifests P.name manifestProducts,
        merged := if P ∈ st.merged then st.merged else st.merged ++ [P],
        history :=
          if P.name ∈ st.history then st.history else st.history ++ [P.name] }

/-- Run `unlink_devel_products` for package `P` on state `st` (the private
devel space is present and this is not a dry run, as in a real linked-devel
clean job); on success the specification-level `merged` set drops `P`. -/
def applyUnmerge (st : Sys) (P : Package) : Sys :=
  let r := unlink_devel_products st.fs st.ledger true
    (alookup st.manifests P.name) false
  { fs := r.2.1, ledger := r.2.2.1, manifests := st.manifests,
    merged :=
      if r.1 = 0 then st.merged.filter (fun Q => decide (Q.name ≠ P.name))
      else st.merged,
    history := st.history }

/-- Number of currently-merged packages producing destination `d`. -/
def nProducing (merged : List Package) (d : Path) : Nat :=
  (merged.filter (fun P => decide (d ∈ P.dests))).length

/-- The ledger invariant of the specification: for every destination the
ledger holds (number of currently-merged packages producing it) minus one,
with the entry absent exactly when that value would be 0 (or no merged
package produces it at all). -/
def LedgerInv (st : Sys) : Prop :=
  ∀ d : Path,
    alookup st.ledger d =
      if nProducing st.merged d ≤ 1 then none
      else some (nProducing st.merged d - 1)

/-- The full induction invariant of the merge engine over a universe `U` of
packages: the ledger invariant, plus the facts about filesystem shape,
manifests and bookkeeping that make it inductive. -/
structure Inv (U : List Package) (st : Sys) : Prop where
  ledgerInv : LedgerInv st
  linkIffProduced : ∀ d : Path,
    (∃ t, fget st.fs d = some (FType.link t)) ↔ 1 ≤ nProducing st.merged d
  linkSource : ∀ d t, fget st.fs d = some (FType.link t) →
    ∃ P ∈ U, P.name ∈ st.history ∧ (t, d) ∈ P.products
  sourcesPresent : ∀ P ∈ U, ∀ s ∈ P.sources, fget st.fs s = some FType.regular
  entriesShape : ∀ p T, fget st.fs p = some T →
    (T = FType.regular ∧ ∃ P ∈ U, p ∈ P.sources) ∨ ∃ t, T = FType.link t
  mergedSub : ∀ P ∈ st.merged, P ∈ U
  mergedNamesNodup : (st.merged.map Package.name).Nodup
  mergedHistory : ∀ P ∈ st.merged, P.name ∈ st.history
  manifestOfMerged : ∀ P ∈ st.merged,
    alookup st.manifests P.name = some P.products
  manifestHistory : ∀ nm, nm ∉ st.history → alookup st.manifests nm = none

/-- Well-formedness of a package universe: distinct package names, within
each package distinct destinations, each source file belonging to exactly
one package, and sources disjoint from destinations (private devel spaces
are disjoint from the merged devel space). -/
structure GoodUniverse (U : List Package) : Prop where
  namesNodup : (U.map Package.name).Nodup
  destsNodup : ∀ P ∈ U, P.dests.Nodup
  sourcesOwned : ∀ P ∈ U, ∀ Q ∈ U, ∀ s ∈ P.sources, s ∈ Q.sources → P = Q
  sourcesNotDests : ∀ P ∈ U, ∀ Q ∈ U, ∀ s ∈ P.sources, s ∉ Q.dests

/-- The initial state: all package source files exist as regular files, the
merged devel tree, the ledger and the manifests are empty. -/
def initSys (U : List Package) : Sys :=
  { fs := ((U.map Package.sources).flatten).map (fun s => (s, FType.regular)),
    ledger := [], manifests := [], merged := [], history := [] }

/-- Reachability by merge and unmerge operations where every merge is of a
package never merged before in the sequence (first-time merge) and every
unmerge is of a currently-merged package. -/
inductive Reach (U : List Package) (content : Path → Nat) : Sys → Prop
  | init : Reach U content (initSys U)
  | merge {st st' : Sys} {P : Package} : Reach U content st → P ∈ U →
      P.name ∉ st.history → applyMerge content st P = Except.ok st' →
      Reach U content st'
  | unmerge {st : Sys} {P : Package} : Reach U content st → P ∈ st.merged →
      Reach U content (applyUnmerge st P)

/-- Concrete package A, producing `lib/x.so` from its private tree. -/
def pkgA : Package :=
  { name := "A", products := [(["srcA", "x.so"], ["lib", "x.so"])] }

/-- Concrete package B, producing the same destination `lib/x.so`. -/
def pkgB : Package :=
  { name := "B", products := [(["srcB", "x.so"], ["lib", "x.so"])] }

/-- The two-package universe of the collision scenarios. -/
def scU : List Package := [pkgA, pkgB]

/-- File contents in the collision scenarios: A's file differs from B's. -/
def scContent : Path → Nat := fun p => if p = ["srcA", "x.so"] then 0 else 1

/-- The shared destination of the collision scenarios. -/
def scD : Path := ["lib", "x.so"]

/-- State after merging A. -/
def scS1 : Except Unit Sys := applyMerge scContent (initSys scU) pkgA

/-- State after merging A then B. -/
def scS2 : Except Unit Sys := scS1.bind (fun s => applyMerge scContent s pkgB)

/-- State after merging A, then B, then running B's merge again (a rebuild
of B with unchanged source output). -/
def scS3 : Except Unit Sys := scS2.bind (fun s => applyMerge scContent s pkgB)

/-- The state after merging A alone into an empty merged devel space (the
payload of `scS1`), written out. -/
def scAState : Sys :=
  { fs := [(["srcA", "x.so"], FType.regular),
           (["srcB", "x.so"], FType.regular),
           (["lib", "x.so"], FType.link ["srcA", "x.so"])],
    ledger := [],
    manifests := [("A", [(["srcA", "x.so"], ["lib", "x.so"])])],
    merged := [pkgA],
    history := ["A"] }

/-- Modelled from the spec: a Command stage's exit-code policy
(`CommandStage` of catkin_tools.execution.stages, which is not under src/):
the argument vector, the set of success exit codes (default only 0), and
the optional early-termination exit code. -/
structure CommandStage : Type where
  name : String
  args : List String
  successRetcodes : List Int := [0]
  earlyTerminationRetcode : Option Int := none
deriving DecidableEq, Repr

/-- Outcome of one stage: continue to the next stage, stop early with the
job reported successful, or fail the job with the exit code. -/
inductive StageOutcome : Type
  | next
  | earlyStop
  | failed (code : Int)
deriving DecidableEq, Repr

/-- Modelled from the spec: classification of a Command stage's exit code
(spec section 4.2): the early-termination code gives EarlyStop, any other
code in the success set continues, and a code outside the success set fails
the job with that code. -/
def classifyRetcode (stage : CommandStage) (code : Int) : StageOutcome :=
  if stage.earlyTerminationRetcode = some code then StageOutcome.earlyStop
  else if code ∈ stage.successRetcodes then StageOutcome.next
  else StageOutcome.failed code

/-- Modelled from the spec: strictly sequential stage execution of a Job
(spec section 4.2), given each Command stage's exit code; returns the list
of executed stage names and whether the job is reported successful. -/
def runStages : List (CommandStage × Int) → List String × Bool
  | [] => ([], true)
  | (stage, code) :: rest =>
    match classifyRetcode stage code with
    | StageOutcome.next =>
      let r := runStages rest
      (stage.name :: r.1, r.2)
    | StageOutcome.earlyStop => ([stage.name], true)
    | StageOutcome.failed _ => ([stage.name], false)

/-- The check stage of the test job (catkin.py lines 657-663). -/
def checkStage : CommandStage :=
  { name := "check", args := ["make", "cmake_check_build_system"] }

/-- The findtest stage of the test job (catkin.py lines 665-674): probe
`make -q target`; 2 (target does not exist) is the early-termination code,
and the success codes are 0, 1 and 2. -/
def findtestStage (test_target : String) : CommandStage :=
  { name := "findtest", args := ["make", "-q", test_target],
    successRetcodes := [0, 1, 2], earlyTerminationRetcode := some 2 }

/-- The make stage of the test job (catkin.py lines 676-682). -/
def makeTestStage (test_target : String) (makeArgs : List String) :
    CommandStage :=
  { name := "make", args := ["make", test_target] ++ makeArgs }

/-- The results stage of the test job (catkin.py lines 684-693). -/
def resultsStage (verbose : Bool) : CommandStage :=
  { name := "results",
    args :=
      if verbose then ["catkin_test_results", "--verbose"]
      else ["catkin_test_results"] }

/-- The Command stages of the test job produced by `create_catkin_test_job`
(catkin.py lines 623-700), in order; the leading in-process `loadenv`
Function stage carries no exit-code policy and is not a Command stage. -/
def catkinTestJobCommandStages (test_target : String)
    (makeArgs : List String) (verbose : Bool) : List CommandStage :=
  [checkStage, findtestStage test_target,
   makeTestStage test_target makeArgs, resultsStage verbose]

/-- A stage of the clean job, by name, together with the paths its
`rmfiles` call removes (empty for stages that remove no paths directly). -/
structure CleanStage : Type where
  name : String
  rmPaths : List Path
deriving DecidableEq, Repr

/-- Embedding of the stage assembly of `create_catkin_clean_job` (catkin.py
lines 522-620).  Workspace layout paths and context flags are parameters;
`installed_files` is the installed set computed from the install manifest
and `pythonDirExists` says whether the installed Python package directory
for this package exists.  The Python `sorted(...)` over the installed files
is an ordering detail and the given order is kept. -/
def create_catkin_clean_job_stages
    (installed_files : List Path) (install_dir python_dir : Path)
    (pythonDirExists : Bool)
    (private_devel_path devel_space build_space metadata_path : Path)
    (merge_install merge_devel link_devel isolate_devel : Bool)
    (clean_build clean_devel clean_install : Bool) : List CleanStage :=
  (if clean_install then
    let files1 :=
      if merge_install then
        installed_files.filter (fun p => decide (p.dropLast ≠ install_dir))
      else installed_files
    let files2 := if pythonDirExists then files1 ++ [python_dir] else files1
    [{ name := "cleaninstall", rmPaths := files2 }]
  else []) ++
  (if clean_devel then
    if merge_devel then [{ name := "clean", rmPaths := [] }]
    else if link_devel then
      [{ name := "unlink", rmPaths := [] },
       { name := "rmdevel", rmPaths := [private_devel_path] }]
    else if isolate_devel then [{ name := "rmdevel", rmPaths := [devel_space] }]
    else []
  else []) ++
  (if clean_build then [{ name := "rmbuild", rmPaths := [build_space] }] else []) ++
  (if clean_build && clean_devel && clean_install then
    [{ name := "rmmetadata", rmPaths := [metadata_path] }]
  else [])

/-- Abstract YAML dictionary contents of a verb's metadata file. -/
abbrev MetaData := List (String × String)

/-- Embedding of `get_active_metadata` (metadata.py lines 449-462),
abstracted over the active-profile lookup and the metadata store read
(`get_active_profile`, `get_metadata`): the body computes the active
profile and evaluates `get_metadata`, but contains no return statement, so
the Python function falls off the end and returns `None`. -/
def get_active_metadata (get_active_profile : String → String)
    (get_metadata : String → String → String → MetaData)
    (workspace_path verb : String) : Option MetaData :=
  let active_profile := get_active_profile workspace_path
  let _ := get_metadata workspace_path active_profile verb
  none

/-- Modelled from the docstring of `get_active_metadata` (metadata.py lines
450-458): the documented return value, "a python structure representing
the YAML file contents (empty dict if the file does not exist)", i.e. the
result of the `get_metadata` read for the active profile. -/
def get_active_metadata_documented (get_active_profile : String → String)
    (get_metadata : String → String → String → MetaData)
    (workspace_path verb : String) : Option MetaData :=
  some (get_metadata workspace_path (get_active_profile workspace_path) verb)

/-- A Python value passed positionally to `update_active_metadata`. -/
inductive PyVal : Type
  | str (s : String)
  | dat (d : MetaData)
deriving DecidableEq, Repr

/-- A Python exception of interest, or exhaustion of the modelled call
depth. -/
inductive PyErr : Type
  | typeError
  | outOfFuel
deriving DecidableEq, Repr

/-- Embedding of `update_active_metadata` (metadata.py lines 465-477) with
explicit Python positional-call semantics: the declared signature
`(workspace_path, verb, new_data={})` accepts 2 to 3 positional arguments,
checked before the body runs; the body computes the active profile and then
calls `update_active_metadata` itself with the four positional arguments
`(workspace_path, active_profile, verb, new_data)`.  `store` is the
persisted metadata, which a successful return would carry back (possibly
updated); an error means nothing was written.  `fuel` bounds the modelled
call depth. -/
def update_active_metadata (get_active_profile : String → String) :
    Nat → List PyVal → MetaData → Except PyErr MetaData
  | fuel, args, store =>
    if args.length < 2 ∨ 3 < args.length then Except.error PyErr.typeError
    else
      match fuel with
      | 0 => Except.error PyErr.outOfFuel
      | fuel' + 1 =>
        match args with
        | [PyVal.str workspace_path, verb] =>
          update_active_metadata get_active_profile fuel'
            [PyVal.str workspace_path,
             PyVal.str (get_active_profile workspace_path), verb,
             PyVal.dat []] store
        | [PyVal.str workspace_path, verb, new_data] =>
          update_active_metadata get_active_profile fuel'
            [PyVal.str workspace_path,
             PyVal.str (get_active_profile workspace_path), verb,
             new_data] store
        | _ => Except.error PyErr.typeError

/-- Closed form of what one pass of the removal loop of
`clean_linked_files` does to a ledger entry: an absent entry stays absent,
a count above 1 is decremented, a count of exactly 1 is deleted (and a
count of 0, which the loop never stores, would be left alone). -/
def cleanOne : Option Nat → Option Nat
  | none => none
  | some 0 => some 0
  | some 1 => none
  | some (k + 2) => some (k + 1)

/-! Association-list lookup lemmas used throughout the proofs. -/

theorem alookup_nil {α β : Type} [DecidableEq α] (k : α) :
    alookup ([] : List (α × β)) k = none := rfl

theorem alookup_cons {α β : Type} [DecidableEq α] (e : α × β)
    (rest : List (α × β)) (k : α) :
    alookup (e :: rest) k = if e.1 = k then some e.2 else alookup rest k := rfl

theorem alookup_append_left {α β : Type} [DecidableEq α]
    (l l' : List (α × β)) (k : α) (h : (alookup l k).isSome) :
    alookup (l ++ l') k = alookup l k := by
  induction l with
  | nil => rw [alookup_nil] at h; simp at h
  | cons e rest ih =>
    rw [alookup_cons] at h ⊢
    rw [List.cons_append, alookup_cons]
    by_cases he : e.1 = k
    · simp [he]
    · rw [if_neg he] at h ⊢
      rw [if_neg he]
      exact ih h

theorem alookup_append_right {α β : Type} [DecidableEq α]
    (l l' : List (α × β)) (k : α) (h : alookup l k = none) :
    alookup (l ++ l') k = alookup l' k := by
  induction l with
  | nil => simp
  | cons e rest ih =>
    rw [alookup_cons] at h
    rw [List.cons_append, alookup_cons]
    by_cases he : e.1 = k
    · rw [if_pos he] at h; simp at h
    · rw [if_neg he] at h
      rw [if_neg he]
      exact ih h

theorem alookup_map_update {α β : Type} [DecidableEq α]
    (l : List (α × β)) (k : α) (v : β) (h : (alookup l k).isSome) :
    alookup (l.map (fun e => if e.1 = k then (k, v) else e)) k = some v := by
  induction l with
  | nil => rw [alookup_nil] at h; simp at h
  | cons e rest ih =>
    rw [alookup_cons] at h
    rw [List.map_cons, alookup_cons]
    by_cases he : e.1 = k
    · simp [he]
    · rw [if_neg he] at h
      rw [if_neg he, if_neg he]
      exact ih h

theorem alookup_map_update_ne {α β : Type} [DecidableEq α]
    (l : List (α × β)) (k k' : α) (v : β) (hne : k' ≠ k) :
    alookup (l.map (fun e => if e.1 = k then (k, v) else e)) k' = alookup l k' := by
  induction l with
  | nil => rfl
  | cons e rest ih =>
    rw [List.map_cons, alookup_cons, alookup_cons]
    by_cases he : e.1 = k
    · rw [if_pos he]
      have h1 : ¬((k, v).1 = k') := fun hk => hne (hk.symm)
      have h2 : ¬(e.1 = k') := by rw [he]; exact fun hk => hne (hk.symm)
      rw [if_neg h1, if_neg h2]
      exact ih
    · rw [if_neg he]
      by_cases he' : e.1 = k'
      · rw [if_pos he', if_pos he']
      · rw [if_neg he', if_neg he']
        exact ih

theorem alookup_aset_self {α β : Type} [DecidableEq α]
    (l : List (α × β)) (k : α) (v : β) : alookup (aset l k v) k = some v := by
  unfold aset
  split
  · exact alookup_map_update l k v (by assumption)
  · rename_i h
    have hnone : alookup l k = none := by
      cases hl : alookup l k with
      | none => rfl
      | some w => rw [hl] at h; simp at h
    rw [alookup_append_right l [(k, v)] k hnone, alookup_cons]
    simp

theorem alookup_aset_ne {α β : Type} [DecidableEq α]
    (l : List (α × β)) (k k' : α) (v : β) (hne : k' ≠ k) :
    alookup (aset l k v) k' = alookup l k' := by
  unfold aset
  split
  · exact alookup_map_update_ne l k k' v hne
  · clear * - hne
    induction l with
    | nil =>
      rw [List.nil_append, alookup_cons, alookup_nil]
      simp [Ne.symm hne]
    | cons e rest ih =>
      rw [List.cons_append, alookup_cons, alookup_cons]
      by_cases he : e.1 = k'
      · rw [if_pos he, if_pos he]
      · rw [if_neg he, if_neg he]
        exact ih

theorem alookup_aerase_self {α β : Type} [DecidableEq α]
    (l : List (α × β)) (k : α) : alookup (aerase l k) k = none := by
  induction l with
  | nil => rfl
  | cons e rest ih =>
    by_cases he : e.1 = k
    · rw [show aerase (e :: rest) k = aerase rest k by
        simp [aerase, List.filter_cons, he]]
      exact ih
    · rw [show aerase (e :: rest) k = e :: aerase rest k by
        simp [aerase, List.filter_cons, he]]
      rw [alookup_cons, if_neg he]
      exact ih

theorem alookup_aerase_ne {α β : Type} [DecidableEq α]
    (l : List (α × β)) (k k' : α) (hne : k' ≠ k) :
    alookup (aerase l k) k' = alookup l k' := by
  induction l with
  | nil => rfl
  | cons e rest ih =>
    by_cases he : e.1 = k
    · have he' : ¬(e.1 = k') := by rw [he]; exact Ne.symm hne
      rw [show aerase (e :: rest) k = aerase rest k by
        simp [aerase, List.filter_cons, he]]
      rw [alookup_cons, if_neg he']
      exact ih
    · rw [show aerase (e :: rest) k = e :: aerase rest k by
        simp [aerase, List.filter_cons, he]]
      rw [alookup_cons, alookup_cons]
      by_cases he' : e.1 = k'
      · rw [if_pos he', if_pos he']
      · rw [if_neg he', if_neg he']
        exact ih

/-! Lemmas about `removedirs`, `removeStep` and the folds inside
`clean_linked_files`. -/

theorem removedirs_unfold (fs : FS) (p : Path) :
    removedirs fs p =
      if p = [] then fs
      else if isEmptyDir fs p then removedirs (fdel fs p) p.dropLast
      else fs := by
  cases p with
  | nil => rfl
  | cons a rest =>
    show removedirsFuel (rest.length + 1) fs (a :: rest) = _
    rw [removedirsFuel]
    have hlen : (a :: rest).dropLast.length = rest.length := by
      rw [List.length_dropLast]
      rfl
    rw [if_neg (by simp : ¬(a :: rest) = [])]
    rw [if_neg (by simp : ¬(a :: rest) = [])]
    by_cases hemp : isEmptyDir fs (a :: rest) = true
    · rw [if_pos hemp, if_pos hemp]
      show removedirsFuel rest.length _ _ = removedirsFuel
        ((a :: rest).dropLast.length) _ _
      rw [hlen]
    · rw [if_neg hemp, if_neg hemp]

theorem removedirs_of_not_empty (fs : FS) (p : Path)
    (h : isEmptyDir fs p = false) : removedirs fs p = fs := by
  rw [removedirs_unfold]
  by_cases hp : p = []
  · rw [if_pos hp]
  · rw [if_neg hp, h]
    simp

theorem isEmptyDir_eq_false_of_not_dir (fs : FS) (p : Path)
    (h : fget fs p ≠ some FType.directory) : isEmptyDir fs p = false := by
  simp only [isEmptyDir, Bool.and_eq_false_iff, beq_eq_false_iff_ne, ne_eq]
  exact Or.inl h

theorem fget_removedirs_not_dir :
    ∀ (n : Nat) (fs : FS) (p q : Path), p.length ≤ n →
      fget fs q ≠ some FType.directory →
      fget (removedirs fs p) q = fget fs q := by
  intro n
  induction n with
  | zero =>
    intro fs p q hlen hq
    have hp : p = [] := List.length_eq_zero.mp (Nat.le_zero.mp hlen)
    rw [removedirs_unfold, if_pos hp]
  | succ n ih =>
    intro fs p q hlen hq
    rw [removedirs_unfold]
    by_cases hp : p = []
    · rw [if_pos hp]
    · rw [if_neg hp]
      by_cases hemp : isEmptyDir fs p = true
      · rw [hemp, if_pos rfl]
        have hdir : fget fs p = some FType.directory := by
          simp only [isEmptyDir, Bool.and_eq_true, beq_iff_eq] at hemp
          exact hemp.1
        have hqp : q ≠ p := by
          intro h
          rw [h] at hq
          exact hq hdir
        have h1 : fget (fdel fs p) q = fget fs q :=
          alookup_aerase_ne fs p q hqp
        have hlen' : p.dropLast.length ≤ n := by
          have hdl : p.dropLast.length = p.length - 1 := List.length_dropLast p
          have hpos : 0 < p.length := List.length_pos.mpr hp
          omega
        rw [ih (fdel fs p) p.dropLast q hlen' (h1 ▸ hq), h1]
      · rw [if_neg hemp]

theorem fget_removedirs_cases :
    ∀ (n : Nat) (fs : FS) (p q : Path), p.length ≤ n →
      fget (removedirs fs p) q = fget fs q ∨
        (fget fs q = some FType.directory ∧ q <+: p ∧
          fget (removedirs fs p) q = none) := by
  intro n
  induction n with
  | zero =>
    intro fs p q hlen
    have hp : p = [] := List.length_eq_zero.mp (Nat.le_zero.mp hlen)
    rw [removedirs_unfold, if_pos hp]
    exact Or.inl rfl
  | succ n ih =>
    intro fs p q hlen
    rw [removedirs_unfold]
    by_cases hp : p = []
    · rw [if_pos hp]; exact Or.inl rfl
    · rw [if_neg hp]
      by_cases hemp : isEmptyDir fs p = true
      · rw [hemp, if_pos rfl]
        have hdir : fget fs p = some FType.directory := by
          simp only [isEmptyDir, Bool.and_eq_true, beq_iff_eq] at hemp
          exact hemp.1
        have hlen' : p.dropLast.length ≤ n := by
          have hdl : p.dropLast.length = p.length - 1 := List.length_dropLast p
          have hpos : 0 < p.length := List.length_pos.mpr hp
          omega
        by_cases hqp : q = p
        · right
          refine ⟨hqp ▸ hdir, hqp ▸ List.prefix_refl p, ?_⟩
          have h1 : fget (fdel fs p) q = none := hqp ▸ alookup_aerase_self fs p
          rw [fget_removedirs_not_dir n (fdel fs p) p.dropLast q hlen'
            (by rw [h1]; exact fun h => Option.noConfusion h), h1]
        · have h1 : fget (fdel fs p) q = fget fs q :=
            alookup_aerase_ne fs p q hqp
          rcases ih (fdel fs p) p.dropLast q hlen' with h | ⟨ha, hb, hc⟩
          · left; rw [h, h1]
          · right
            exact ⟨h1 ▸ ha, hb.trans (List.dropLast_prefix p), hc⟩
      · rw [if_neg hemp]
        exact Or.inl rfl

theorem removeStep_ledger_self (dryRun : Bool) (L : Ledger) (fs : FS)
    (d : Path) :
    alookup (removeStep dryRun (L, fs) d).1 d = cleanOne (alookup L d) := by
  unfold removeStep
  cases hL : alookup L d with
  | none => simp [hL, cleanOne]
  | some k =>
    match k with
    | 0 => simp [hL, cleanOne]
    | 1 => simp [hL, cleanOne, alookup_aerase_self]
    | k + 2 =>
      simp only [hL, Option.getD_some]
      have : k + 2 > 1 := by omega
      simp [this, cleanOne, alookup_aset_self]

theorem removeStep_ledger_ne (dryRun : Bool) (L : Ledger) (fs : FS)
    (d e : Path) (hne : e ≠ d) :
    alookup (removeStep dryRun (L, fs) d).1 e = alookup L e := by
  unfold removeStep
  cases hL : alookup L d with
  | none => simp [hL]
  | some k =>
    match k with
    | 0 => simp [hL]
    | 1 => simp [hL, alookup_aerase_ne L d e hne]
    | k + 2 =>
      simp only [hL, Option.getD_some]
      have : k + 2 > 1 := by omega
      simp [this, alookup_aset_ne L d e _ hne]

theorem removeStep_fs_eq (dryRun : Bool) (L : Ledger) (fs : FS) (d : Path) :
    (removeStep dryRun (L, fs) d).2 =
      if ((alookup L d).getD 0 = 0 && !dryRun) = true then
        (if fexists fs d then removedirs (fdel fs d) d.dropLast else fs)
      else fs := rfl

theorem foldl_addCollision_lookup (collide : List Path) :
    ∀ (L : Ledger) (d : Path),
      alookup (collide.foldl addCollision L) d =
        if collide.count d = 0 then alookup L d
        else some ((alookup L d).getD 0 + collide.count d) := by
  induction collide with
  | nil => intro L d; simp
  | cons e rest ih =>
    intro L d
    rw [List.foldl_cons]
    by_cases hed : e = d
    · subst hed
      rw [ih (addCollision L e) e]
      have hself : alookup (addCollision L e) e =
          some ((alookup L e).getD 0 + 1) := by
        unfold addCollision
        exact alookup_aset_self _ _ _
      rw [List.count_cons_self]
      by_cases hc : rest.count e = 0
      · rw [hc, if_pos rfl, hself]
        simp
      · rw [if_neg hc, if_neg (by omega), hself]
        simp only [Option.getD_some]
        congr 1
        omega
    · have hne : d ≠ e := fun h => hed h.symm
      have h1 : alookup (addCollision L e) d = alookup L d := by
        unfold addCollision
        exact alookup_aset_ne L e d _ hne
      rw [ih (addCollision L e) d, h1, List.count_cons_of_ne hne]

theorem foldl_removeStep_ledger (dryRun : Bool) (toClean : List Path) :
    ∀ (L : Ledger) (fs : FS), toClean.Nodup →
      ∀ d : Path,
        alookup ((toClean.foldl (removeStep dryRun) (L, fs)).1) d =
          if d ∈ toClean then cleanOne (alookup L d) else alookup L d := by
  induction toClean with
  | nil => intro L fs _ d; simp
  | cons e rest ih =>
    intro L fs hnd d
    have hnd' : rest.Nodup := hnd.of_cons
    have her : e ∉ rest := (List.nodup_cons.mp hnd).1
    rw [List.foldl_cons]
    have hpair : removeStep dryRun (L, fs) e =
        ((removeStep dryRun (L, fs) e).1, (removeStep dryRun (L, fs) e).2) :=
      rfl
    rw [hpair, ih _ _ hnd' d]
    by_cases hde : d = e
    · subst hde
      rw [if_neg (fun h => her h), if_pos (List.mem_cons_self d rest)]
      exact removeStep_ledger_self dryRun L fs d
    · rw [removeStep_ledger_ne dryRun L fs e d hde]
      by_cases hdr : d ∈ rest
      · rw [if_pos hdr, if_pos (List.mem_cons_of_mem e hdr)]
      · rw [if_neg hdr,
          if_neg (fun h => (List.mem_cons.mp h).elim hde hdr)]

theorem foldl_removeStep_fs (toClean : List Path) :
    ∀ (L : Ledger) (fs : FS), toClean.Nodup →
      (∀ d ∈ toClean, ∃ t, fget fs d = some (FType.link t) ∧
        fget fs t = some FType.regular) →
      (∀ d ∈ toClean,
        fget ((toClean.foldl (removeStep false) (L, fs)).2) d =
          if (alookup L d).getD 0 = 0 then none else fget fs d) ∧
      (∀ q, q ∉ toClean → fget fs q ≠ some FType.directory →
        fget ((toClean.foldl (removeStep false) (L, fs)).2) q = fget fs q) := by
  induction toClean with
  | nil => intro L fs _ _; exact ⟨fun d hd => absurd hd (List.not_mem_nil d),
      fun q _ _ => rfl⟩
  | cons e rest ih =>
    intro L fs hnd hlink
    have hnd' : rest.Nodup := hnd.of_cons
    have her : e ∉ rest := (List.nodup_cons.mp hnd).1
    obtain ⟨te, hlinke, hrege⟩ := hlink e (List.mem_cons_self e rest)
    -- what the head step does to the filesystem
    have hfse : (removeStep false (L, fs) e).2 =
        if (alookup L e).getD 0 = 0 then removedirs (fdel fs e) e.dropLast
        else fs := by
      rw [removeStep_fs_eq]
      by_cases hz : (alookup L e).getD 0 = 0
      · rw [if_pos hz]
        have hex : fexists fs e = true := by
          simp [fexists, hlinke, hrege]
        rw [hex, if_pos rfl]
        simp [hz]
      · rw [if_neg hz]
        simp [hz]
    -- the head step preserves every non-directory entry other than e
    have hpres : ∀ q, q ≠ e → fget fs q ≠ some FType.directory →
        fget (removeStep false (L, fs) e).2 q = fget fs q := by
      intro q hqe hqd
      rw [hfse]
      by_cases hz : (alookup L e).getD 0 = 0
      · rw [if_pos hz]
        have h1 : fget (fdel fs e) q = fget fs q := alookup_aerase_ne fs e q hqe
        rw [fget_removedirs_not_dir e.dropLast.length (fdel fs e) e.dropLast q
          (le_refl _) (h1 ▸ hqd), h1]
      · rw [if_neg hz]
    -- the head step resolves e itself
    have hstepe : fget (removeStep false (L, fs) e).2 e =
        if (alookup L e).getD 0 = 0 then none else fget fs e := by
      rw [hfse]
      by_cases hz : (alookup L e).getD 0 = 0
      · rw [if_pos hz, if_pos hz]
        have h1 : fget (fdel fs e) e = none := alookup_aerase_self fs e
        rw [fget_removedirs_not_dir e.dropLast.length (fdel fs e) e.dropLast e
          (le_refl _) (by rw [h1]; exact fun h => Option.noConfusion h), h1]
      · rw [if_neg hz, if_neg hz]
    -- hypotheses for the tail
    have hlink' : ∀ d ∈ rest, ∃ t,
        fget (removeStep false (L, fs) e).2 d = some (FType.link t) ∧
        fget (removeStep false (L, fs) e).2 t = some FType.regular := by
      intro d hd
      obtain ⟨t, hl, hr⟩ := hlink d (List.mem_cons_of_mem e hd)
      have hde : d ≠ e := fun h => her (h ▸ hd)
      have hte : t ≠ e := by
        intro h
        rw [h, hlinke] at hr
        exact FType.noConfusion (Option.some.inj hr)
      refine ⟨t, ?_, ?_⟩
      · rw [hpres d hde (by
          rw [hl]; exact fun h => FType.noConfusion (Option.some.inj h))]
        exact hl
      · rw [hpres t hte (by
          rw [hr]; exact fun h => FType.noConfusion (Option.some.inj h))]
        exact hr
    have hih := ih (removeStep false (L, fs) e).1
      (removeStep false (L, fs) e).2 hnd' hlink'
    rw [List.foldl_cons]
    have hpair : removeStep false (L, fs) e =
        ((removeStep false (L, fs) e).1, (removeStep false (L, fs) e).2) :=
      rfl
    rw [hpair]
    constructor
    · intro d hd
      rcases List.mem_cons.mp hd with hde | hdr
      · subst hde
        rw [hih.2 d (fun h => her h) (by
          rw [hstepe]
          by_cases hz : (alookup L d).getD 0 = 0
          · rw [if_pos hz]; exact fun h => Option.noConfusion h
          · rw [if_neg hz, hlinke]
            exact fun h => FType.noConfusion (Option.some.inj h))]
        exact hstepe
      · rw [hih.1 d hdr,
          removeStep_ledger_ne false L fs e d (fun h => her (h ▸ hdr))]
        obtain ⟨t, hl, _⟩ := hlink d (List.mem_cons_of_mem e hdr)
        rw [hpres d (fun h => her (h ▸ hdr))
          (by rw [hl]; exact fun h => FType.noConfusion (Option.some.inj h))]
    · intro q hq hqd
      have hqe : q ≠ e := fun h => hq (h ▸ List.mem_cons_self e rest)
      have hqr : q ∉ rest := fun h => hq (List.mem_cons_of_mem e h)
      rw [hih.2 q hqr (by rw [hpres q hqe hqd]; exact hqd),
        hpres q hqe hqd]

/-! Lemmas about `scanManifest`. -/

theorem scanManifest_fault_of_bad (fs : FS) :
    ∀ (m : List (Path × Path)),
      (∃ pr ∈ m, fexists fs pr.2 = true ∧ islink fs pr.2 = false) →
      scanManifest fs m = ScanResult.fault := by
  intro m
  induction m with
  | nil => rintro ⟨pr, hmem, _⟩; exact absurd hmem (List.not_mem_nil pr)
  | cons e rest ih =>
    rintro ⟨pr, hmem, hex, hnl⟩
    obtain ⟨s, d⟩ := e
    rcases List.mem_cons.mp hmem with hpe | hpr
    · subst hpe
      simp only [scanManifest, hex, Bool.not_true, Bool.false_eq_true,
        if_false, hnl, Bool.not_false, if_true]
    · have hrest : scanManifest fs rest = ScanResult.fault :=
        ih ⟨pr, hpr, hex, hnl⟩
      simp only [scanManifest, hrest]
      by_cases hd : fexists fs d = true
      · simp only [hd, Bool.not_true, Bool.false_eq_true, if_false]
        by_cases hl : islink fs d = true
        · simp [hl]
        · have hl2 : islink fs d = false := by
            revert hl; cases islink fs d <;> simp
          simp [hl2]
      · have hd2 : fexists fs d = false := by
          revert hd; cases fexists fs d <;> simp
        simp [hd2]

theorem scanManifest_ok_of_good (fs : FS) :
    ∀ (m : List (Path × Path)),
      (∀ pr ∈ m, fexists fs pr.2 = true → islink fs pr.2 = true) →
      scanManifest fs m =
        ScanResult.ok ((m.filter (fun pr => !(fexists fs pr.2))).map Prod.snd)
          ((m.filter (fun pr => fexists fs pr.2)).map Prod.snd) := by
  intro m
  induction m with
  | nil => intro _; rfl
  | cons e rest ih =>
    intro h
    obtain ⟨s, d⟩ := e
    have hrest := ih (fun pr hpr => h pr (List.mem_cons_of_mem _ hpr))
    by_cases hd : fexists fs d = true
    · have hl : islink fs d = true := h (s, d) (List.mem_cons_self _ _) hd
      simp only [scanManifest, hd, Bool.not_true, Bool.false_eq_true,
        if_false, hl, if_true, hrest]
      simp [List.filter_cons, hd]
    · have hd' : fexists fs d = false := Bool.not_eq_true _ ▸ hd
      simp only [scanManifest, hd', Bool.not_false, if_true, hrest]
      simp [List.filter_cons, hd']

/-! Claim C2: what `clean_linked_files` does to the ledger and the
filesystem. -/

/-- C2 (counterexample): the claim says a destination scheduled for removal
whose count is 0 is unlinked and its now-empty parent directories are
removed upward; but when the destination does not currently exist the code
skips both the unlink and the parent-directory removal.  With an empty
ledger, the empty directory `a` present, and the absent destination `a/f`
scheduled for removal, the claimed parent-removal (what `removedirs` does
after an unlink) would delete the empty directory `a`, yet
`clean_linked_files` leaves the filesystem unchanged. -/
theorem c2_absent_dest_skips_removedirs :
    (clean_linked_files [] [] [["a", "f"]]
        [(["a"], FType.directory)] false).2 = [(["a"], FType.directory)] ∧
    removedirs [(["a"], FType.directory)] (["a", "f"] : Path).dropLast = [] ∧
    ([(["a"], FType.directory)] : FS) ≠ [] := by
  refine ⟨rfl, rfl, by simp⟩

/-- C2 (amended): `clean_linked_files`, run for real (no dry run), first
increments the ledger count of every destination in the collision set
(treating an absent entry as 0); then for every destination scheduled for
removal (no duplicates), if its count is 0 it unlinks the destination
provided it currently exists (an absent destination is left alone, and its
parents are not removed) and removes now-empty parent directories upward
stopping at the first non-empty directory while ignoring removal errors; if
its count is greater than 1 it decrements the count without unlinking; and
if its count is exactly 1 it deletes the ledger entry without unlinking the
destination. -/
theorem c2_clean_linked_files_spec :
    (∀ (L : Ledger) (collide : List Path) (d : Path),
        alookup (collide.foldl addCollision L) d =
          if collide.count d = 0 then alookup L d
          else some ((alookup L d).getD 0 + collide.count d)) ∧
    (∀ (L : Ledger) (collide toClean : List Path) (fs : FS) (d : Path),
        toClean.Nodup →
        alookup (clean_linked_files L collide toClean fs false).1 d =
          if d ∈ toClean then
            cleanOne (alookup (collide.foldl addCollision L) d)
          else alookup (collide.foldl addCollision L) d) ∧
    (∀ (L : Ledger) (collide toClean : List Path) (fs : FS),
        toClean.Nodup →
        (∀ d ∈ toClean, ∃ t, fget fs d = some (FType.link t) ∧
          fget fs t = some FType.regular) →
        ∀ d ∈ toClean,
          fget (clean_linked_files L collide toClean fs false).2 d =
            if (alookup (collide.foldl addCollision L) d).getD 0 = 0
            then none else fget fs d) ∧
    (∀ (fs : FS) (p q : Path),
        fget (removedirs fs p) q = fget fs q ∨
          (fget fs q = some FType.directory ∧ q <+: p ∧
            fget (removedirs fs p) q = none)) ∧
    (∀ (fs : FS) (p : Path), isEmptyDir fs p = false → removedirs fs p = fs) := by
  refine ⟨fun L collide d => foldl_addCollision_lookup collide L d, ?_, ?_,
    ?_, removedirs_of_not_empty⟩
  · intro L collide toClean fs d hnd
    simp only [clean_linked_files, Bool.false_eq_true, if_false]
    exact foldl_removeStep_ledger false toClean
      (collide.foldl addCollision L) fs hnd d
  · intro L collide toClean fs hnd hlink d hd
    simp only [clean_linked_files]
    exact (foldl_removeStep_fs toClean (collide.foldl addCollision L) fs hnd
      hlink).1 d hd
  · intro fs p q
    exact fget_removedirs_cases p.length fs p q (le_refl _)

/-- C2 (witness): the amended characterization at a concrete input: with
ledger count 2 for `lib/x.so`, removal decrements it to 1 without
unlinking. -/
theorem c2_clean_linked_files_spec_witness :
    alookup (clean_linked_files [(["lib", "x.so"], 2)] [] [["lib", "x.so"]]
        [] false).1 ["lib", "x.so"] =
      if ["lib", "x.so"] ∈ [(["lib", "x.so"] : Path)] then
        cleanOne (alookup (([] : List Path).foldl addCollision
          [(["lib", "x.so"], 2)]) ["lib", "x.so"])
      else
        alookup (([] : List Path).foldl addCollision
          [(["lib", "x.so"], 2)]) ["lib", "x.so"] :=
  c2_clean_linked_files_spec.2.1 [(["lib", "x.so"], 2)] [] [["lib", "x.so"]]
    [] ["lib", "x.so"] (by simp)

/-! Claim C4: consistency faults and warnings during
`unlink_devel_products`. -/

/-- C4: for every package manifest, if some listed destination exists but
is not a symlink, the whole operation returns the fault code -1 with the
filesystem and ledger untouched and nothing unlinked; if instead every
existing listed destination is a symlink, the operation returns 0, warns
exactly about the listed destinations that are already absent (in order),
and cleans exactly the listed destinations that still exist via
`clean_linked_files` with an empty collision set. -/
theorem c4_unlink_devel_products_spec :
    ∀ (fs : FS) (ledger : Ledger) (manifest : List (Path × Path))
      (dryRun : Bool),
      ((∃ pr ∈ manifest, fexists fs pr.2 = true ∧ islink fs pr.2 = false) →
        unlink_devel_products fs ledger true (some manifest) dryRun =
          (-1, fs, ledger, [])) ∧
      ((∀ pr ∈ manifest, fexists fs pr.2 = true → islink fs pr.2 = true) →
        unlink_devel_products fs ledger true (some manifest) dryRun =
          (0,
           (clean_linked_files ledger []
             ((manifest.filter (fun pr => fexists fs pr.2)).map Prod.snd)
             fs dryRun).2,
           (clean_linked_files ledger []
             ((manifest.filter (fun pr => fexists fs pr.2)).map Prod.snd)
             fs dryRun).1,
           (manifest.filter (fun pr => !(fexists fs pr.2))).map Prod.snd)) := by
  intro fs ledger manifest dryRun
  constructor
  · intro hbad
    simp only [unlink_devel_products, Bool.not_true, Bool.false_eq_true,
      if_false, scanManifest_fault_of_bad fs manifest hbad]
  · intro hgood
    simp only [unlink_devel_products, Bool.not_true, Bool.false_eq_true,
      if_false, scanManifest_ok_of_good fs manifest hgood]

/-- C4 (witness): at a concrete state: a manifest listing a destination
that exists as a regular file (not a symlink) makes the unmerge abort with
-1, touching nothing. -/
theorem c4_unlink_devel_products_spec_witness :
    unlink_devel_products [(["lib", "a"], FType.regular)] [] true
        (some [(["src", "a"], ["lib", "a"])]) false =
      (-1, [(["lib", "a"], FType.regular)], [], []) :=
  (c4_unlink_devel_products_spec [(["lib", "a"], FType.regular)] []
      [(["src", "a"], ["lib", "a"])] false).1
    ⟨(["src", "a"], ["lib", "a"]), by simp, by decide, by decide⟩

/-! Claim C6: which files the merge skips, and how the two skiplists
relate. -/

/-- C6 (counterexample): the claim says the exclusion list applied to the
prebuild package is a superset of the one applied to ordinary packages; in
fact `setup.bash` is excluded for ordinary packages but not for the
prebuild package, so the prebuild list is the smaller (laxer) one. -/
theorem c6_prebuild_skiplist_not_superset :
    ["setup.bash"] ∈ DEVEL_LINK_SKIPLIST ∧
    ["setup.bash"] ∉ DEVEL_LINK_PREBUILD_SKIPLIST ∧
    should_skip_file false ["setup.bash"] = true ∧
    should_skip_file true ["setup.bash"] = false := by
  refine ⟨by decide, by decide, by decide, by decide⟩

/-- C6 (amended): a file is skipped exactly when its path relative to the
source tree is in the fixed exclusion list selected by the prebuild flag,
or some component of that relative path is an excluded directory name; and
the exclusion list applied to ordinary packages is a strict superset of the
(laxer) one applied when merging the synthetic prebuild package. -/
theorem c6_should_skip_file_spec :
    (∀ (prebuild : Bool) (relpath : Path),
        should_skip_file prebuild relpath = true ↔
          (relpath ∈
              (if prebuild then DEVEL_LINK_PREBUILD_SKIPLIST
               else DEVEL_LINK_SKIPLIST) ∨
            ∃ directory ∈ relpath, directory ∈ DEVEL_LINK_SKIP_DIRECTORIES)) ∧
    (∀ p ∈ DEVEL_LINK_PREBUILD_SKIPLIST, p ∈ DEVEL_LINK_SKIPLIST) ∧
    (∃ p ∈ DEVEL_LINK_SKIPLIST, p ∉ DEVEL_LINK_PREBUILD_SKIPLIST) := by
  refine ⟨?_, ?_, ⟨["setup.bash"], by decide, by decide⟩⟩
  · intro prebuild relpath
    simp [should_skip_file, List.any_eq_true]
  · intro p hp
    simp only [DEVEL_LINK_SKIPLIST, List.mem_append]
    exact Or.inl hp

/-- C6 (witness): the amended characterization at a concrete input: a file
under a `__pycache__` directory is skipped for ordinary packages. -/
theorem c6_should_skip_file_spec_witness :
    should_skip_file false ["lib", "__pycache__", "m.pyc"] = true ↔
      (["lib", "__pycache__", "m.pyc"] ∈
          (if false then DEVEL_LINK_PREBUILD_SKIPLIST
           else DEVEL_LINK_SKIPLIST) ∨
        ∃ directory ∈ ["lib", "__pycache__", "m.pyc"],
          directory ∈ DEVEL_LINK_SKIP_DIRECTORIES) :=
  c6_should_skip_file_spec.1 false ["lib", "__pycache__", "m.pyc"]

/-! Claim C7: the findtest stage's exit-code policy in the test job. -/

/-- C7 (counterexample): the claim says any exit code other than 2 lets the
job continue; but exit code 3 lies outside the findtest stage's success set
(0, 1, 2), so it fails the stage and the job stops as failed. -/
theorem c7_findtest_code3_fails :
    classifyRetcode (findtestStage "run_tests") 3 = StageOutcome.failed 3 ∧
    StageOutcome.failed 3 ≠ StageOutcome.next ∧
    runStages
        [(checkStage, 0), (findtestStage "run_tests", 3),
         (makeTestStage "run_tests" [], 0)] =
      (["check", "findtest"], false) := by
  refine ⟨rfl, by decide, rfl⟩

/-- C7 (amended): in the test job, the findtest probe stage early-stops on
exit code 2 (remaining stages skipped, job reported successful), continues
on exit codes 0 and 1, and fails the job on any other exit code; in the
scenario check exits 0 and findtest exits 2, so exactly the first two
stages execute and the job is successful.  The stage execution model is
modelled from the spec since `catkin_tools.execution.stages` is not under
src/. -/
theorem c7_findtest_retcode_policy :
    (∀ (test_target : String) (code : Int),
        classifyRetcode (findtestStage test_target) code =
          if code = 2 then StageOutcome.earlyStop
          else if code = 0 ∨ code = 1 then StageOutcome.next
          else StageOutcome.failed code) ∧
    (∀ (test_target : String) (makeArgs : List String) (compileCode : Int),
        runStages
            [(checkStage, 0), (findtestStage test_target, 2),
             (makeTestStage test_target makeArgs, compileCode)] =
          (["check", "findtest"], true)) := by
  constructor
  · intro test_target code
    simp only [classifyRetcode, findtestStage]
    by_cases h2 : code = 2
    · simp [h2]
    · have hne : ¬(some (2 : Int) = some code) := by
        intro h; exact h2 (Option.some.injEq _ _ ▸ h).symm
      rw [if_neg hne, if_neg h2]
      by_cases h0 : code = 0
      · simp [h0]
      · by_cases h1 : code = 1
        · simp [h1]
        · have : ¬(code = 0 ∨ code = 1) := by
            intro h; cases h with
            | inl h => exact h0 h
            | inr h => exact h1 h
          rw [if_neg this]
          have hmem : code ∉ ([0, 1, 2] : List Int) := by
            intro h
            simp only [List.mem_cons, List.not_mem_nil, or_false] at h
            rcases h with h | h | h
            · exact h0 h
            · exact h1 h
            · exact h2 h
          rw [if_neg hmem]
  · intro test_target makeArgs compileCode
    rfl

/-- C7 (witness): the amended classification at the concrete exit code 5,
which fails the stage. -/
theorem c7_findtest_retcode_policy_witness :
    classifyRetcode (findtestStage "run_tests") 5 =
      if (5 : Int) = 2 then StageOutcome.earlyStop
      else if (5 : Int) = 0 ∨ (5 : Int) = 1 then StageOutcome.next
      else StageOutcome.failed 5 :=
  c7_findtest_retcode_policy.1 "run_tests" 5

/-! Claim C8: the clean job removes the metadata directory exactly when all
three removal scopes were requested. -/

/-- C8: in the clean job, the `rmmetadata` stage (the only stage whose
removal paths include the package metadata directory, given that the
metadata directory is distinct from the other removed paths) is present if
and only if all of build, devel and install removal were requested. -/
theorem c8_rmmetadata_iff_all_three_scopes :
    ∀ (installed_files : List Path) (install_dir python_dir : Path)
      (pythonDirExists : Bool)
      (private_devel_path devel_space build_space metadata_path : Path)
      (merge_install merge_devel link_devel isolate_devel : Bool)
      (clean_build clean_devel clean_install : Bool),
      metadata_path ∉ installed_files →
      metadata_path ≠ python_dir →
      metadata_path ≠ private_devel_path →
      metadata_path ≠ devel_space →
      metadata_path ≠ build_space →
      ((∃ s ∈ create_catkin_clean_job_stages installed_files install_dir
            python_dir pythonDirExists private_devel_path devel_space
            build_space metadata_path merge_install merge_devel link_devel
            isolate_devel clean_build clean_devel clean_install,
          s.name = "rmmetadata") ↔
        (clean_build = true ∧ clean_devel = true ∧ clean_install = true)) ∧
      ((∃ s ∈ create_catkin_clean_job_stages installed_files install_dir
            python_dir pythonDirExists private_devel_path devel_space
            build_space metadata_path merge_install merge_devel link_devel
            isolate_devel clean_build clean_devel clean_install,
          metadata_path ∈ s.rmPaths) ↔
        (clean_build = true ∧ clean_devel = true ∧ clean_install = true)) := by
  intro installed_files install_dir python_dir pythonDirExists
    private_devel_path devel_space build_space metadata_path
    merge_install merge_devel link_devel isolate_devel
    clean_build clean_devel clean_install
    hfiles hpy hpriv hdev hbuild
  have hmain :
      ∀ s ∈ create_catkin_clean_job_stages installed_files install_dir
          python_dir pythonDirExists private_devel_path devel_space
          build_space metadata_path merge_install merge_devel link_devel
          isolate_devel clean_build clean_devel clean_install,
        (s.name = "rmmetadata" ∨ metadata_path ∈ s.rmPaths) →
          (clean_build = true ∧ clean_devel = true ∧ clean_install = true) ∧
            s.name = "rmmetadata" ∧ metadata_path ∈ s.rmPaths := by
    intro s hs
    simp only [create_catkin_clean_job_stages, List.mem_append] at hs
    intro hcase
    rcases hs with ((hs | hs) | hs) | hs
    · exfalso
      cases clean_install with
      | false => simp at hs
      | true =>
        simp only [if_true, List.mem_singleton] at hs
        subst hs
        rcases hcase with hname | hmem
        · simp at hname
        · cases pythonDirExists <;> cases merge_install <;>
            simp_all [List.mem_filter, List.mem_append]
    · exfalso
      cases clean_devel with
      | false => simp at hs
      | true =>
        cases merge_devel <;> cases link_devel <;> cases isolate_devel <;>
          simp only [Bool.false_eq_true, if_true, if_false,
            List.mem_singleton, List.mem_cons, List.not_mem_nil,
            or_false] at hs <;>
          first
          | exact hs
          | (rcases hs with hs | hs <;> subst hs <;>
              rcases hcase with hname | hmem <;> simp_all)
          | (subst hs; rcases hcase with hname | hmem <;> simp_all)
    · exfalso
      cases clean_build with
      | false => simp at hs
      | true =>
        simp only [if_true, List.mem_singleton] at hs
        subst hs
        rcases hcase with hname | hmem <;> simp_all
    · rcases hcond : (clean_build && clean_devel && clean_install) with _ | _
      · rw [hcond] at hs; simp at hs
      · rw [hcond] at hs
        simp only [if_true, List.mem_singleton] at hs
        subst hs
        have hflags := hcond
        simp only [Bool.and_eq_true] at hflags
        exact ⟨⟨hflags.1.1, hflags.1.2, hflags.2⟩, rfl, List.mem_singleton.mpr rfl⟩
  constructor
  · constructor
    · rintro ⟨s, hs, hname⟩
      exact (hmain s hs (Or.inl hname)).1
    · rintro ⟨hb, hd, hi⟩
      subst hb; subst hd; subst hi
      refine ⟨{ name := "rmmetadata", rmPaths := [metadata_path] }, ?_, rfl⟩
      simp [create_catkin_clean_job_stages]
  · constructor
    · rintro ⟨s, hs, hmem⟩
      exact (hmain s hs (Or.inr hmem)).1
    · rintro ⟨hb, hd, hi⟩
      subst hb; subst hd; subst hi
      refine ⟨{ name := "rmmetadata", rmPaths := [metadata_path] }, ?_,
        List.mem_singleton.mpr rfl⟩
      simp [create_catkin_clean_job_stages]

/-- C8 (witness): the claim at a concrete layout with all three scopes
requested: the `rmmetadata` stage is present and removes the metadata
directory. -/
theorem c8_rmmetadata_iff_all_three_scopes_witness :
    ((∃ s ∈ create_catkin_clean_job_stages [[ "i", "f" ]] ["i"] ["py"] true
          ["pd"] ["ds"] ["bs"] ["md"] true true true true true true true,
        s.name = "rmmetadata") ↔
      (true = true ∧ true = true ∧ true = true)) ∧
    ((∃ s ∈ create_catkin_clean_job_stages [[ "i", "f" ]] ["i"] ["py"] true
          ["pd"] ["ds"] ["bs"] ["md"] true true true true true true true,
        ["md"] ∈ s.rmPaths) ↔
      (true = true ∧ true = true ∧ true = true)) :=
  c8_rmmetadata_iff_all_three_scopes [[ "i", "f" ]] ["i"] ["py"] true
    ["pd"] ["ds"] ["bs"] ["md"] true true true true true true true
    (by decide) (by decide) (by decide) (by decide) (by decide)

/-! Claim C9: `get_active_metadata` always returns None. -/

/-- C9: for every workspace path and verb (and any behavior of the
active-profile lookup and the metadata read it delegates to),
`get_active_metadata` returns None, never the read result its docstring
promises (the documented result, being a dictionary, is never None). -/
theorem c9_get_active_metadata_returns_none :
    ∀ (get_active_profile : String → String)
      (get_metadata : String → String → String → MetaData)
      (workspace_path verb : String),
      get_active_metadata get_active_profile get_metadata workspace_path
          verb = none ∧
      get_active_metadata get_active_profile get_metadata workspace_path
          verb ≠
        get_active_metadata_documented get_active_profile get_metadata
          workspace_path verb := by
  intro gap gm workspace_path verb
  constructor
  · rfl
  · intro h
    exact Option.noConfusion h

/-- C9 (witness): the claim at a concrete workspace, verb and store. -/
theorem c9_get_active_metadata_returns_none_witness :
    get_active_metadata (fun _ => "default")
        (fun _ _ _ => [("jobs", "4")]) "/ws" "build" = none ∧
    get_active_metadata (fun _ => "default")
        (fun _ _ _ => [("jobs", "4")]) "/ws" "build" ≠
      get_active_metadata_documented (fun _ => "default")
        (fun _ _ _ => [("jobs", "4")]) "/ws" "build" :=
  c9_get_active_metadata_returns_none (fun _ => "default")
    (fun _ _ _ => [("jobs", "4")]) "/ws" "build"

/-! Claim C10: `update_active_metadata` always raises TypeError. -/

/-- Helper: a positional call of `update_active_metadata` with four
arguments fails the arity check of its three-parameter signature at call
time, before any recursion, whatever the call depth left. -/
theorem update_active_metadata_four_args (gap : String → String) (fuel : Nat)
    (a b c d : PyVal) (store : MetaData) :
    update_active_metadata gap fuel [a, b, c, d] store =
      Except.error PyErr.typeError := by
  rw [update_active_metadata.eq_def]
  simp

/-- C10: for every workspace path, vert and data dictionary (with either 2
or 3 positional arguments, and any call depth left), the recursive call of
`update_active_metadata` passes four positional arguments to its own
three-parameter signature, so every call raises TypeError and the persisted
metadata is never written (an error result carries no updated store). -/
theorem c10_update_active_metadata_type_error :
    ∀ (get_active_profile : String → String) (fuel : Nat)
      (workspace_path verb : String) (new_data : PyVal) (store : MetaData),
      update_active_metadata get_active_profile (fuel + 1)
          [PyVal.str workspace_path, PyVal.str verb, new_data] store =
        Except.error PyErr.typeError ∧
      update_active_metadata get_active_profile (fuel + 1)
          [PyVal.str workspace_path, PyVal.str verb] store =
        Except.error PyErr.typeError := by
  intro gap fuel workspace_path verb new_data store
  constructor <;>
    (rw [update_active_metadata.eq_def]; simp [update_active_metadata_four_args])

/-- C10 (witness): the claim at a concrete workspace, verb, dictionary and
call depth. -/
theorem c10_update_active_metadata_type_error_witness :
    update_active_metadata (fun _ => "default") 7
        [PyVal.str "/ws", PyVal.str "build", PyVal.dat [("jobs", "4")]]
        [("old", "1")] =
      Except.error PyErr.typeError ∧
    update_active_metadata (fun _ => "default") 7
        [PyVal.str "/ws", PyVal.str "build"] [("old", "1")] =
      Except.error PyErr.typeError :=
  c10_update_active_metadata_type_error (fun _ => "default") 6 "/ws" "build"
    (PyVal.dat [("jobs", "4")]) [("old", "1")]

/-! Lemmas about `linkProducts` and `link_devel_products`. -/

theorem fget_append_left (fs fs2 : FS) (q : Path)
    (h : (fget fs q).isSome) : fget (fs ++ fs2) q = fget fs q :=
  alookup_append_left fs fs2 q h

theorem linkProducts_ok_mono (content : Path → Nat) :
    ∀ (prods : List (Path × Path)) (fs fs' : FS) (c w : List Path),
      linkProducts content fs prods = Except.ok (fs', c, w) →
      ∀ q, (fget fs q).isSome → fget fs' q = fget fs q := by
  intro prods
  induction prods with
  | nil =>
    intro fs fs' c w h q _
    simp only [linkProducts, Except.ok.injEq, Prod.mk.injEq] at h
    rw [h.1]
  | cons pr rest ih =>
    obtain ⟨s, d⟩ := pr
    intro fs fs' c w h q hq
    simp only [linkProducts] at h
    by_cases he : fexists fs d = true
    · rw [if_pos he] at h
      by_cases hr : realpath fs d ≠ realpath fs s
      · rw [if_pos hr] at h
        cases hrec : linkProducts content fs rest with
        | error e => rw [hrec] at h; exact Except.noConfusion h
        | ok r =>
          obtain ⟨fs1, c1, w1⟩ := r
          rw [hrec] at h
          simp only [Except.ok.injEq, Prod.mk.injEq] at h
          rw [← h.1]
          exact ih fs fs1 c1 w1 hrec q hq
      · rw [if_neg hr] at h
        exact ih fs fs' c w h q hq
    · rw [if_neg he] at h
      by_cases hsm : (fget fs d).isSome = true
      · rw [if_pos hsm] at h; exact Except.noConfusion h
      · rw [if_neg hsm] at h
        have hq2 : (fget (fs ++ [(d, FType.link s)]) q).isSome := by
          rw [fget_append_left fs [(d, FType.link s)] q hq]
          exact hq
        rw [ih (fs ++ [(d, FType.link s)]) fs' c w h q hq2,
          fget_append_left fs [(d, FType.link s)] q hq]

theorem linkProducts_outputs_sub (content : Path → Nat) :
    ∀ (prods : List (Path × Path)) (fs fs' : FS) (c w : List Path),
      linkProducts content fs prods = Except.ok (fs', c, w) →
      (∀ x ∈ c, x ∈ prods.map Prod.snd) ∧ (∀ x ∈ w, x ∈ prods.map Prod.snd) := by
  intro prods
  induction prods with
  | nil =>
    intro fs fs' c w h
    simp only [linkProducts, Except.ok.injEq, Prod.mk.injEq] at h
    rw [← h.2.1, ← h.2.2]
    exact ⟨fun x hx => absurd hx (List.not_mem_nil x),
      fun x hx => absurd hx (List.not_mem_nil x)⟩
  | cons pr rest ih =>
    obtain ⟨s, d⟩ := pr
    intro fs fs' c w h
    simp only [linkProducts] at h
    by_cases he : fexists fs d = true
    · rw [if_pos he] at h
      by_cases hr : realpath fs d ≠ realpath fs s
      · rw [if_pos hr] at h
        cases hrec : linkProducts content fs rest with
        | error e => rw [hrec] at h; exact Except.noConfusion h
        | ok r =>
          obtain ⟨fs1, c1, w1⟩ := r
          rw [hrec] at h
          simp only [Except.ok.injEq, Prod.mk.injEq] at h
          have hsub := ih fs fs1 c1 w1 hrec
          constructor
          · intro x hx
            rw [← h.2.1] at hx
            rcases List.mem_cons.mp hx with hxd | hxc
            · rw [hxd]; exact List.mem_cons_self _ _
            · exact List.mem_cons_of_mem _ (hsub.1 x hxc)
          · intro x hx
            rw [← h.2.2] at hx
            by_cases hdiff :
                content (realpath fs s) ≠ content (realpath fs d)
            · rw [if_pos hdiff] at hx
              rcases List.mem_cons.mp hx with hxd | hxw
              · rw [hxd]; exact List.mem_cons_self _ _
              · exact List.mem_cons_of_mem _ (hsub.2 x hxw)
            · rw [if_neg hdiff] at hx
              exact List.mem_cons_of_mem _ (hsub.2 x hx)
      · rw [if_neg hr] at h
        have hsub := ih fs fs' c w h
        exact ⟨fun x hx => List.mem_cons_of_mem _ (hsub.1 x hx),
          fun x hx => List.mem_cons_of_mem _ (hsub.2 x hx)⟩
    · rw [if_neg he] at h
      by_cases hsm : (fget fs d).isSome = true
      · rw [if_pos hsm] at h; exact Except.noConfusion h
      · rw [if_neg hsm] at h
        have hsub := ih (fs ++ [(d, FType.link s)]) fs' c w h
        exact ⟨fun x hx => List.mem_cons_of_mem _ (hsub.1 x hx),
          fun x hx => List.mem_cons_of_mem _ (hsub.2 x hx)⟩

theorem linkProducts_noop (content : Path → Nat) :
    ∀ (prods : List (Path × Path)) (fs : FS),
      (∀ pr ∈ prods, fget fs pr.2 = some (FType.link pr.1) ∧
        fget fs pr.1 = some FType.regular) →
      linkProducts content fs prods = Except.ok (fs, [], []) := by
  intro prods
  induction prods with
  | nil => intro fs _; rfl
  | cons pr rest ih =>
    obtain ⟨s, d⟩ := pr
    intro fs h
    obtain ⟨hd, hs⟩ := h (s, d) (List.mem_cons_self _ _)
    have he : fexists fs d = true := by simp [fexists, hd, hs]
    have hreq : realpath fs d = realpath fs s := by
      simp [realpath, hd, hs]
    simp only [linkProducts, he, if_true, hreq, ne_eq,
      not_true_eq_false, if_false]
    exact ih fs (fun pr hpr => h pr (List.mem_cons_of_mem _ hpr))

theorem filter_not_mem_self (l : List (Path × Path)) :
    List.filter (fun pr => decide (pr ∉ l)) l = [] := by
  apply List.filter_eq_nil_iff.mpr
  intro a ha
  simp [ha]

theorem link_devel_products_manifest (content : Path → Nat) (fs : FS)
    (ledger : Ledger) (products : List (Path × Path))
    (oldManifest : Option (List (Path × Path)))
    (r : FS × Ledger × List (Path × Path) × List Path)
    (h : link_devel_products content fs ledger products oldManifest =
      Except.ok r) :
    r.2.2.1 = products := by
  unfold link_devel_products at h
  cases hlp : linkProducts content fs products with
  | error e => rw [hlp] at h; exact Except.noConfusion h
  | ok q =>
    obtain ⟨fs1, c1, w1⟩ := q
    rw [hlp] at h
    simp only [Except.ok.injEq] at h
    rw [← h]

/-! Claim C3: collision handling during a merge. -/

/-- C3: during a merge, a product whose destination exists and resolves to
a different real file than the source is added to the collision set
regardless of content; a warning is emitted exactly when the content hashes
differ; and the pre-existing link is left in place.  In the concrete
scenario, after merging package A and then package B (whose destination
`lib/x.so` collides with A's with differing content): the ledger count for
the destination is 1, the destination still resolves to A's file, B's merge
emitted exactly one content-mismatch warning for it, and no fault was
raised. -/
theorem c3_collision_handling :
    (∀ (content : Path → Nat) (fs fs' : FS) (s d : Path)
       (rest : List (Path × Path)) (c w : List Path),
        fexists fs d = true →
        realpath fs d ≠ realpath fs s →
        d ∉ rest.map Prod.snd →
        linkProducts content fs ((s, d) :: rest) = Except.ok (fs', c, w) →
        d ∈ c ∧
        (d ∈ w ↔ content (realpath fs s) ≠ content (realpath fs d)) ∧
        fget fs' d = fget fs d) ∧
    (scS2.toOption.map
        (fun st => (alookup st.ledger scD, realpath st.fs scD)) =
      some (some 1, ["srcA", "x.so"])) ∧
    (scS1.toOption.map (fun st =>
        (link_devel_products scContent st.fs st.ledger pkgB.products
          (alookup st.manifests pkgB.name)).toOption.map
          (fun r => r.2.2.2)) =
      some (some [scD])) := by
  refine ⟨?_, by rfl, by rfl⟩
  intro content fs fs' s d rest c w he hr hnd h
  simp only [linkProducts] at h
  rw [if_pos he, if_pos hr] at h
  cases hrec : linkProducts content fs rest with
  | error e => rw [hrec] at h; exact Except.noConfusion h
  | ok r =>
    obtain ⟨fs1, c1, w1⟩ := r
    rw [hrec] at h
    simp only [Except.ok.injEq, Prod.mk.injEq] at h
    obtain ⟨hfs, hc, hw⟩ := h
    have hd : (fget fs d).isSome := by
      revert he
      unfold fexists
      cases fget fs d with
      | none => intro hcon; exact Bool.noConfusion hcon
      | some t => intro _; rfl
    have hsub := linkProducts_outputs_sub content rest fs fs1 c1 w1 hrec
    refine ⟨?_, ?_, ?_⟩
    · rw [← hc]; exact List.mem_cons_self _ _
    · rw [← hw]
      constructor
      · intro hmem
        by_cases hdiff : content (realpath fs s) ≠ content (realpath fs d)
        · exact hdiff
        · rw [if_neg hdiff] at hmem
          exact absurd (hsub.2 d hmem) hnd
      · intro hdiff
        rw [if_pos hdiff]
        exact List.mem_cons_self _ _
    · rw [← hfs]
      exact linkProducts_ok_mono content rest fs fs1 c1 w1 hrec d hd

/-- C3 (witness): the general collision characterization at the concrete
filesystem reached by merging A, offered B's colliding product with
differing content: the destination is collected as a collision, warned
about, and its link left in place. -/
theorem c3_collision_handling_witness :
    (["lib", "x.so"] : Path) ∈ [(["lib", "x.so"] : Path)] ∧
    ((["lib", "x.so"] : Path) ∈ [(["lib", "x.so"] : Path)] ↔
      scContent (realpath scAState.fs ["srcB", "x.so"]) ≠
        scContent (realpath scAState.fs ["lib", "x.so"])) ∧
    fget scAState.fs ["lib", "x.so"] = fget scAState.fs ["lib", "x.so"] :=
  c3_collision_handling.1 scContent scAState.fs scAState.fs
    ["srcB", "x.so"] ["lib", "x.so"] [] [["lib", "x.so"]] [["lib", "x.so"]]
    (by decide) (by decide) (by decide) (by rfl)

/-! Claim C5: idempotence of the merge. -/

/-- C5 (counterexample): merging is not idempotent in the presence of a
collision: after merging A then B (ledger count 1 for the shared
destination), running B's merge again with unchanged source output
increments the ledger count to 2 — the second run introduces a new
collision. -/
theorem c5_remerge_increments_ledger :
    (scS2.toOption.map (fun st => alookup st.ledger scD) = some (some 1)) ∧
    (scS3.toOption.map (fun st => alookup st.ledger scD) = some (some 2)) ∧
    some (2 : Nat) ≠ some 1 := by
  refine ⟨by rfl, by rfl, by simp⟩

/-- C5 (amended): every successful merge persists exactly the product list
as the package's Manifest (so a second run with unchanged source output
stores an identical Manifest); and when none of the package's destinations
collides — every destination already links to the package's own source —
re-running the merge leaves the filesystem and the ledger completely
unchanged (zero new collisions).  A destination colliding with another
package is, however, re-counted by every re-run (see the counterexample). -/
theorem c5_merge_idempotent_no_collision :
    (∀ (content : Path → Nat) (st : Sys) (P : Package) (st' : Sys),
        applyMerge content st P = Except.ok st' →
        alookup st'.manifests P.name = some P.products) ∧
    (∀ (content : Path → Nat) (st : Sys) (P : Package),
        (∀ pr ∈ P.products, fget st.fs pr.2 = some (FType.link pr.1) ∧
          fget st.fs pr.1 = some FType.regular) →
        alookup st.manifests P.name = some P.products →
        (applyMerge content st P).map (fun s => (s.fs, s.ledger)) =
          Except.ok (st.fs, st.ledger) ∧
        (applyMerge content st P).map
            (fun s => alookup s.manifests P.name) =
          Except.ok (some P.products)) := by
  constructor
  · intro content st P st' h
    unfold applyMerge at h
    cases hldp : link_devel_products content st.fs st.ledger P.products
        (alookup st.manifests P.name) with
    | error e => rw [hldp] at h; exact Except.noConfusion h
    | ok r =>
      obtain ⟨fs', L', mprods, warned⟩ := r
      have hm : mprods = P.products :=
        link_devel_products_manifest content st.fs st.ledger P.products
          (alookup st.manifests P.name) (fs', L', mprods, warned) hldp
      rw [hldp] at h
      simp only [Except.ok.injEq] at h
      rw [← h]
      simp only [hm]
      exact alookup_aset_self st.manifests P.name P.products
  · intro content st P hnoop hman
    have hldp : link_devel_products content st.fs st.ledger P.products
        (alookup st.manifests P.name) =
        Except.ok (st.fs, st.ledger, P.products, []) := by
      unfold link_devel_products
      rw [linkProducts_noop content P.products st.fs hnoop, hman]
      simp only [filter_not_mem_self, List.map_nil]
      rfl
    unfold applyMerge
    rw [hldp]
    constructor
    · rfl
    · simp only [Except.map]
      rw [alookup_aset_self]

/-- C5 (witness): the no-collision idempotence at the concrete state
reached by merging package A alone: re-running A's merge changes neither
the filesystem nor the ledger and stores the same Manifest. -/
theorem c5_merge_idempotent_no_collision_witness :
    (applyMerge scContent scAState pkgA).map (fun s => (s.fs, s.ledger)) =
      Except.ok (scAState.fs, scAState.ledger) ∧
    (applyMerge scContent scAState pkgA).map
        (fun s => alookup s.manifests pkgA.name) =
      Except.ok (some pkgA.products) :=
  c5_merge_idempotent_no_collision.2 scContent scAState pkgA
    (by decide) (by decide)

/-! Supporting lemmas for the ledger-invariant induction (claim C1). -/

theorem fget_append_single_ne (fs : FS) (d q : Path) (T : FType)
    (hne : q ≠ d) : fget (fs ++ [(d, T)]) q = fget fs q := by
  show alookup (fs ++ [(d, T)]) q = alookup fs q
  cases hq : alookup fs q with
  | none =>
    rw [alookup_append_right fs [(d, T)] q hq, alookup_cons,
      if_neg (fun h => hne h.symm), alookup_nil]
  | some t =>
    rw [alookup_append_left fs [(d, T)] q (by rw [hq]; rfl), hq]

theorem alookup_map_snd_key (f : Path × Path → FType) :
    ∀ (l : List (Path × Path)) (pr : Path × Path), pr ∈ l →
      (l.map Prod.snd).Nodup →
      alookup (l.map (fun e => (e.2, f e))) pr.2 = some (f pr) := by
  intro l
  induction l with
  | nil => intro pr hpr; exact absurd hpr (List.not_mem_nil pr)
  | cons e rest ih =>
    intro pr hpr hnd
    have hnd2 : (rest.map Prod.snd).Nodup := (List.nodup_cons.mp hnd).2
    have hnot : e.2 ∉ rest.map Prod.snd := (List.nodup_cons.mp hnd).1
    rcases List.mem_cons.mp hpr with hpe | hprr
    · subst hpe
      rw [List.map_cons, alookup_cons, if_pos rfl]
    · have hne : e.2 ≠ pr.2 := by
        intro h
        exact hnot (h ▸ List.mem_map_of_mem Prod.snd hprr)
      rw [List.map_cons, alookup_cons, if_neg hne]
      exact ih pr hprr hnd2

theorem alookup_map_snd_link_inv :
    ∀ (l : List (Path × Path)) (q : Path) (T : FType),
      alookup (l.map (fun e => (e.2, FType.link e.1))) q = some T →
      ∃ pr ∈ l, pr.2 = q ∧ T = FType.link pr.1 := by
  intro l
  induction l with
  | nil => intro q T h; exact Option.noConfusion h
  | cons e rest ih =>
    intro q T h
    rw [List.map_cons, alookup_cons] at h
    by_cases he : e.2 = q
    · rw [if_pos he] at h
      exact ⟨e, List.mem_cons_self _ _, he, (Option.some.inj h).symm⟩
    · rw [if_neg he] at h
      obtain ⟨pr, hpr, hq, hT⟩ := ih q T h
      exact ⟨pr, List.mem_cons_of_mem _ hpr, hq, hT⟩

theorem map_snd_filter_nodup (l : List (Path × Path))
    (f : Path × Path → Bool) (h : (l.map Prod.snd).Nodup) :
    ((l.filter f).map Prod.snd).Nodup := by
  have hsub : ((l.filter f).map Prod.snd).Sublist (l.map Prod.snd) :=
    List.Sublist.map Prod.snd (List.filter_sublist l)
  exact h.sublist hsub

theorem nProducing_append (merged : List Package) (P : Package) (d : Path) :
    nProducing (merged ++ [P]) d =
      nProducing merged d + (if d ∈ P.dests then 1 else 0) := by
  unfold nProducing
  rw [List.filter_append, List.length_append]
  congr 1
  by_cases hd : d ∈ P.dests
  · rw [if_pos hd]
    simp [hd]
  · rw [if_neg hd]
    simp [hd]

theorem nProducing_pos_of_mem (merged : List Package) (P : Package)
    (d : Path) (hP : P ∈ merged) (hd : d ∈ P.dests) :
    1 ≤ nProducing merged d := by
  unfold nProducing
  have : P ∈ merged.filter (fun Q => decide (d ∈ Q.dests)) :=
    List.mem_filter.mpr ⟨hP, by simp [hd]⟩
  exact List.length_pos.mpr (List.ne_nil_of_mem this)

theorem nProducing_filter_name :
    ∀ (merged : List Package) (P : Package), P ∈ merged →
      (merged.map Package.name).Nodup → ∀ d : Path,
      nProducing (merged.filter (fun Q => decide (Q.name ≠ P.name))) d =
        nProducing merged d - (if d ∈ P.dests then 1 else 0) := by
  intro merged
  induction merged with
  | nil => intro P hP; exact absurd hP (List.not_mem_nil P)
  | cons Q rest ih =>
    intro P hP hnd d
    have hnd2 : (rest.map Package.name).Nodup := (List.nodup_cons.mp hnd).2
    have hnot : Q.name ∉ rest.map Package.name := (List.nodup_cons.mp hnd).1
    rcases List.mem_cons.mp hP with hQP | hPr
    · subst hQP
      have hfil : rest.filter (fun R => decide (R.name ≠ P.name)) = rest :=
        List.filter_eq_self.mpr (fun R hR => by
          simp only [decide_eq_true_eq]
          intro h
          exact hnot (h ▸ List.mem_map_of_mem Package.name hR))
      have h1 : List.filter (fun R => decide (R.name ≠ P.name)) (P :: rest) =
          List.filter (fun R => decide (R.name ≠ P.name)) rest := by
        rw [List.filter_cons]
        have h0 : (decide (P.name ≠ P.name)) = false := by simp
        rw [h0]
        simp
      rw [h1, hfil]
      unfold nProducing
      by_cases hd : d ∈ P.dests
      · rw [if_pos hd, show List.filter (fun R => decide (d ∈ R.dests))
            (P :: rest) = P :: rest.filter (fun R => decide (d ∈ R.dests))
            from by rw [List.filter_cons]; simp [hd]]
        rw [List.length_cons]
        omega
      · rw [if_neg hd, show List.filter (fun R => decide (d ∈ R.dests))
            (P :: rest) = rest.filter (fun R => decide (d ∈ R.dests))
            from by rw [List.filter_cons]; simp [hd]]
        omega
    · have hQname : Q.name ≠ P.name := fun h =>
        hnot (h ▸ List.mem_map_of_mem Package.name hPr)
      rw [show List.filter (fun R => decide (R.name ≠ P.name)) (Q :: rest) =
          Q :: rest.filter (fun R => decide (R.name ≠ P.name))
          from by rw [List.filter_cons]; simp [hQname]]
      have hrec := ih P hPr hnd2 d
      unfold nProducing at hrec ⊢
      have hge : (if d ∈ P.dests then 1 else 0) ≤
          (rest.filter (fun R => decide (d ∈ R.dests))).length := by
        by_cases hd : d ∈ P.dests
        · rw [if_pos hd]
          have hpos := nProducing_pos_of_mem rest P d hPr hd
          unfold nProducing at hpos
          exact hpos
        · rw [if_neg hd]; exact Nat.zero_le _
      by_cases hQd : d ∈ Q.dests
      · rw [show List.filter (fun R => decide (d ∈ R.dests))
            (Q :: rest.filter (fun R => decide (R.name ≠ P.name))) =
            Q :: (rest.filter (fun R => decide (R.name ≠ P.name))).filter
              (fun R => decide (d ∈ R.dests))
            from by rw [List.filter_cons]; simp [hQd]]
        rw [show List.filter (fun R => decide (d ∈ R.dests)) (Q :: rest) =
            Q :: rest.filter (fun R => decide (d ∈ R.dests))
            from by rw [List.filter_cons]; simp [hQd]]
        rw [List.length_cons, List.length_cons, hrec]
        omega
      · rw [show List.filter (fun R => decide (d ∈ R.dests))
            (Q :: rest.filter (fun R => decide (R.name ≠ P.name))) =
            (rest.filter (fun R => decide (R.name ≠ P.name))).filter
              (fun R => decide (d ∈ R.dests))
            from by rw [List.filter_cons]; simp [hQd]]
        rw [show List.filter (fun R => decide (d ∈ R.dests)) (Q :: rest) =
            rest.filter (fun R => decide (d ∈ R.dests))
            from by rw [List.filter_cons]; simp [hQd]]
        exact hrec

theorem alookup_const_regular :
    ∀ (l : List Path) (q : Path),
      alookup (l.map (fun s => (s, FType.regular))) q =
        if q ∈ l then some FType.regular else none := by
  intro l
  induction l with
  | nil => intro q; simp [alookup_nil]
  | cons e rest ih =>
    intro q
    rw [List.map_cons, alookup_cons]
    by_cases he : e = q
    · subst he
      rw [if_pos rfl, if_pos (List.mem_cons_self _ _)]
    · rw [if_neg he, ih q]
      by_cases hq : q ∈ rest
      · rw [if_pos hq, if_pos (List.mem_cons_of_mem _ hq)]
      · rw [if_neg hq,
          if_neg (fun h => (List.mem_cons.mp h).elim (fun h2 => he h2.symm) hq)]

theorem count_eq_zero_of_not_mem_path (l : List Path) (d : Path)
    (h : d ∉ l) : l.count d = 0 := by
  induction l with
  | nil => rfl
  | cons e rest ih =>
    have hne : d ≠ e := fun hh => h (hh ▸ List.mem_cons_self e rest)
    rw [List.count_cons_of_ne hne]
    exact ih (fun hh => h (List.mem_cons_of_mem e hh))

theorem count_eq_one_of_nodup_mem_path (l : List Path) (d : Path)
    (hnd : l.Nodup) (hmem : d ∈ l) : l.count d = 1 := by
  induction l with
  | nil => exact absurd hmem (List.not_mem_nil d)
  | cons e rest ih =>
    have hnot : e ∉ rest := (List.nodup_cons.mp hnd).1
    rcases List.mem_cons.mp hmem with hde | hdr
    · subst hde
      rw [List.count_cons_self, count_eq_zero_of_not_mem_path rest d hnot]
    · have hne : d ≠ e := fun hh => (hh ▸ hnot) hdr
      rw [List.count_cons_of_ne hne]
      exact ih (List.nodup_cons.mp hnd).2 hdr

theorem foldl_addCollision_mem (collide : List Path) (L : Ledger) (d : Path)
    (hnd : collide.Nodup) :
    (d ∈ collide →
      alookup (collide.foldl addCollision L) d =
        some ((alookup L d).getD 0 + 1)) ∧
    (d ∉ collide →
      alookup (collide.foldl addCollision L) d = alookup L d) := by
  constructor
  · intro hmem
    rw [foldl_addCollision_lookup collide L d,
      if_neg (by rw [count_eq_one_of_nodup_mem_path collide d hnd hmem]; omega),
      count_eq_one_of_nodup_mem_path collide d hnd hmem]
  · intro hmem
    rw [foldl_addCollision_lookup collide L d,
      if_pos (count_eq_zero_of_not_mem_path collide d hmem)]

/-- Characterization of the product-linking traversal on a well-formed
state: distinct destinations, sources present as regular files and disjoint
from destinations, and every pre-existing destination entry a symlink to
some other package's (regular, present) source.  The traversal succeeds,
appends a link for exactly the fresh destinations, collects exactly the
pre-existing destinations as collisions, and warns exactly about those
whose linked content differs. -/
theorem linkProducts_char (content : Path → Nat) :
    ∀ (prods : List (Path × Path)) (fs : FS),
      (prods.map Prod.snd).Nodup →
      (∀ pr ∈ prods, fget fs pr.1 = some FType.regular ∧
        pr.1 ∉ prods.map Prod.snd) →
      (∀ pr ∈ prods, fget fs pr.2 = none ∨
        ∃ t, fget fs pr.2 = some (FType.link t) ∧
          fget fs t = some FType.regular ∧ t ≠ pr.1) →
      linkProducts content fs prods = Except.ok
        (fs ++ (prods.filter (fun pr => (fget fs pr.2).isNone)).map
            (fun pr => (pr.2, FType.link pr.1)),
         (prods.filter (fun pr => (fget fs pr.2).isSome)).map Prod.snd,
         (prods.filter (fun pr =>
            match fget fs pr.2 with
            | some (FType.link t) => decide (content pr.1 ≠ content t)
            | _ => false)).map Prod.snd) := by
  intro prods
  induction prods with
  | nil => intro fs _ _ _; simp [linkProducts]
  | cons pr rest ih =>
    obtain ⟨s, d⟩ := pr
    intro fs hnd hsrc hdst
    have hnd2 : (rest.map Prod.snd).Nodup := (List.nodup_cons.mp hnd).2
    have hdnotr : d ∉ rest.map Prod.snd := (List.nodup_cons.mp hnd).1
    obtain ⟨hs_reg, hs_nd⟩ := hsrc (s, d) (List.mem_cons_self _ _)
    rcases hdst (s, d) (List.mem_cons_self _ _) with hd_none | ⟨t, hd_link, ht_reg, ht_ne⟩
    · -- fresh destination: a new link is created
      have hex : fexists fs d = false := by
        unfold fexists
        rw [show fget fs d = none from hd_none]
      have hsm : (fget fs d).isSome = false := by rw [hd_none]; rfl
      -- hypotheses for the tail over the filesystem with the new link
      have hpres : ∀ q, q ≠ d → fget (fs ++ [(d, FType.link s)]) q = fget fs q :=
        fun q hq => fget_append_single_ne fs d q (FType.link s) hq
      have hsrc2 : ∀ pr ∈ rest, fget (fs ++ [(d, FType.link s)]) pr.1 =
          some FType.regular ∧ pr.1 ∉ rest.map Prod.snd := by
        intro pr hpr
        obtain ⟨h1, h2⟩ := hsrc pr (List.mem_cons_of_mem _ hpr)
        have hne : pr.1 ≠ d := by
          intro h
          exact h2 (h ▸ List.mem_cons_self d (rest.map Prod.snd))
        exact ⟨by rw [hpres pr.1 hne]; exact h1,
          fun h => h2 (List.mem_cons_of_mem _ h)⟩
      have hdst2 : ∀ pr ∈ rest, fget (fs ++ [(d, FType.link s)]) pr.2 = none ∨
          ∃ t, fget (fs ++ [(d, FType.link s)]) pr.2 = some (FType.link t) ∧
            fget (fs ++ [(d, FType.link s)]) t = some FType.regular ∧
            t ≠ pr.1 := by
        intro pr hpr
        have hne : pr.2 ≠ d := by
          intro h
          exact hdnotr (h ▸ List.mem_map_of_mem Prod.snd hpr)
        rcases hdst pr (List.mem_cons_of_mem _ hpr) with h1 | ⟨t, h1, h2, h3⟩
        · exact Or.inl (by rw [hpres pr.2 hne]; exact h1)
        · refine Or.inr ⟨t, by rw [hpres pr.2 hne]; exact h1, ?_, h3⟩
          have htd : t ≠ d := by
            intro h
            rw [h, hd_none] at h2
            exact Option.noConfusion h2
          rw [hpres t htd]
          exact h2
      have hrec := ih (fs ++ [(d, FType.link s)]) hnd2 hsrc2 hdst2
      -- the three output components over the extended filesystem coincide
      -- with those over the original one
      have hsame : ∀ pr : Path × Path, pr ∈ rest →
          fget (fs ++ [(d, FType.link s)]) pr.2 = fget fs pr.2 := by
        intro pr hpr
        have hne : pr.2 ≠ d := by
          intro h
          exact hdnotr (h ▸ List.mem_map_of_mem Prod.snd hpr)
        exact hpres pr.2 hne
      have hA : rest.filter
            (fun pr => (fget (fs ++ [(d, FType.link s)]) pr.2).isNone) =
          rest.filter (fun pr => (fget fs pr.2).isNone) :=
        List.filter_congr (fun pr hpr => by rw [hsame pr hpr])
      have hB : rest.filter
            (fun pr => (fget (fs ++ [(d, FType.link s)]) pr.2).isSome) =
          rest.filter (fun pr => (fget fs pr.2).isSome) :=
        List.filter_congr (fun pr hpr => by rw [hsame pr hpr])
      have hC : rest.filter (fun pr =>
            match fget (fs ++ [(d, FType.link s)]) pr.2 with
            | some (FType.link t) => decide (content pr.1 ≠ content t)
            | _ => false) =
          rest.filter (fun pr =>
            match fget fs pr.2 with
            | some (FType.link t) => decide (content pr.1 ≠ content t)
            | _ => false) :=
        List.filter_congr (fun pr hpr => by rw [hsame pr hpr])
      rw [show linkProducts content fs ((s, d) :: rest) =
          linkProducts content (fs ++ [(d, FType.link s)]) rest from by
        simp only [linkProducts]
        rw [if_neg (by rw [hex]; exact Bool.noConfusion),
          if_neg (by rw [hsm]; exact Bool.noConfusion)]]
      rw [hrec, hA, hB, hC]
      rw [show List.filter (fun pr => (fget fs pr.2).isNone) ((s, d) :: rest) =
          (s, d) :: rest.filter (fun pr => (fget fs pr.2).isNone) from by
        rw [List.filter_cons]
        simp [hd_none]]
      rw [show List.filter (fun pr => (fget fs pr.2).isSome) ((s, d) :: rest) =
          rest.filter (fun pr => (fget fs pr.2).isSome) from by
        rw [List.filter_cons]
        simp [hd_none]]
      rw [show List.filter (fun pr =>
            match fget fs pr.2 with
            | some (FType.link t) => decide (content pr.1 ≠ content t)
            | _ => false) ((s, d) :: rest) =
          rest.filter (fun pr =>
            match fget fs pr.2 with
            | some (FType.link t) => decide (content pr.1 ≠ content t)
            | _ => false) from by
        rw [List.filter_cons]
        simp only [hd_none]
        simp]
      rw [List.map_cons, List.append_assoc]
      rfl
    · -- pre-existing destination linked elsewhere: a collision
      have hex : fexists fs d = true := by
        unfold fexists
        rw [show fget fs d = some (FType.link t) from hd_link]
        show (fget fs t).isSome = true
        rw [show fget fs t = some FType.regular from ht_reg]
        rfl
      have hrp_d : realpath fs d = t := by
        unfold realpath
        rw [show fget fs d = some (FType.link t) from hd_link]
      have hrp_s : realpath fs s = s := by
        unfold realpath
        rw [show fget fs s = some FType.regular from hs_reg]
      have hne : realpath fs d ≠ realpath fs s := by
        rw [hrp_d, hrp_s]
        exact ht_ne
      have hrec := ih fs hnd2
        (fun pr hpr => ⟨(hsrc pr (List.mem_cons_of_mem _ hpr)).1,
          fun h => (hsrc pr (List.mem_cons_of_mem _ hpr)).2
            (List.mem_cons_of_mem _ h)⟩)
        (fun pr hpr => hdst pr (List.mem_cons_of_mem _ hpr))
      show linkProducts content fs ((s, d) :: rest) = _
      simp only [linkProducts]
      rw [if_pos hex, if_pos hne, hrec]
      have hhead_isNone :
          List.filter (fun pr => (fget fs pr.2).isNone) ((s, d) :: rest) =
            rest.filter (fun pr => (fget fs pr.2).isNone) := by
        rw [List.filter_cons]
        simp [hd_link]
      have hhead_isSome :
          List.filter (fun pr => (fget fs pr.2).isSome) ((s, d) :: rest) =
            (s, d) :: rest.filter (fun pr => (fget fs pr.2).isSome) := by
        rw [List.filter_cons]
        simp [hd_link]
      have hhead_warn :
          List.filter (fun pr =>
              match fget fs pr.2 with
              | some (FType.link t) => decide (content pr.1 ≠ content t)
              | _ => false) ((s, d) :: rest) =
            (if content s ≠ content t then [(s, d)] else []) ++
            rest.filter (fun pr =>
              match fget fs pr.2 with
              | some (FType.link t) => decide (content pr.1 ≠ content t)
              | _ => false) := by
        rw [List.filter_cons]
        by_cases hct : content s ≠ content t
        · rw [if_pos hct]
          simp only [hd_link]
          simp [hct]
        · rw [if_neg hct]
          simp only [hd_link]
          simp [hct]
      rw [hhead_isNone, hhead_isSome, hhead_warn]
      rw [hrp_d, hrp_s]
      split_ifs with hct <;> rfl

/-- The initial state satisfies the full invariant. -/
theorem inv_init (U : List Package) (_hU : GoodUniverse U) :
    Inv U (initSys U) := by
  have hfs : ∀ q : Path, fget (initSys U).fs q =
      if q ∈ (U.map Package.sources).flatten then some FType.regular
      else none :=
    fun q => alookup_const_regular ((U.map Package.sources).flatten) q
  refine ⟨?_, ?_, ?_, ?_, ?_, ?_, ?_, ?_, ?_, ?_⟩
  · intro d
    show alookup ([] : Ledger) d =
      if nProducing ([] : List Package) d ≤ 1 then none
      else some (nProducing ([] : List Package) d - 1)
    rw [alookup_nil, show nProducing ([] : List Package) d = 0 from rfl]
    simp
  · intro d
    constructor
    · rintro ⟨t, ht⟩
      rw [hfs d] at ht
      by_cases hq : d ∈ (U.map Package.sources).flatten
      · rw [if_pos hq] at ht
        exact absurd (Option.some.inj ht) (fun h => FType.noConfusion h)
      · rw [if_neg hq] at ht
        exact Option.noConfusion ht
    · intro h
      exact absurd h (by show ¬(1 ≤ nProducing [] d); simp [nProducing])
  · intro d t ht
    rw [hfs d] at ht
    by_cases hq : d ∈ (U.map Package.sources).flatten
    · rw [if_pos hq] at ht
      exact absurd (Option.some.inj ht) (fun h => FType.noConfusion h)
    · rw [if_neg hq] at ht
      exact Option.noConfusion ht
  · intro P hP s hs
    rw [hfs s, if_pos (List.mem_flatten.mpr
      ⟨P.sources, List.mem_map_of_mem Package.sources hP, hs⟩)]
  · intro p T hq
    rw [hfs p] at hq
    by_cases hmem : p ∈ (U.map Package.sources).flatten
    · rw [if_pos hmem] at hq
      obtain ⟨l, hl, hpl⟩ := List.mem_flatten.mp hmem
      obtain ⟨P, hP, rfl⟩ := List.mem_map.mp hl
      exact Or.inl ⟨(Option.some.inj hq).symm, P, hP, hpl⟩
    · rw [if_neg hmem] at hq
      exact Option.noConfusion hq
  · intro P hP
    exact absurd hP (List.not_mem_nil P)
  · exact List.nodup_nil
  · intro P hP
    exact absurd hP (List.not_mem_nil P)
  · intro P hP
    exact absurd hP (List.not_mem_nil P)
  · intro nm _
    rfl

/-- A first-time merge preserves the full invariant. -/
theorem inv_merge (U : List Package) (content : Path → Nat) (st : Sys)
    (P : Package) (st' : Sys) (hU : GoodUniverse U) (hinv : Inv U st)
    (hP : P ∈ U) (hfresh : P.name ∉ st.history)
    (hok : applyMerge content st P = Except.ok st') : Inv U st' := by
  -- every destination entry of P is absent or a symlink to another
  -- package's present source
  have hdst : ∀ pr ∈ P.products, fget st.fs pr.2 = none ∨
      ∃ t, fget st.fs pr.2 = some (FType.link t) ∧
        fget st.fs t = some FType.regular ∧ t ≠ pr.1 := by
    intro pr hpr
    cases hq : fget st.fs pr.2 with
    | none => exact Or.inl rfl
    | some T =>
      rcases hinv.entriesShape pr.2 T hq with ⟨_, Q, hQ, hqsrc⟩ | ⟨t, hTl⟩
      · exact absurd (List.mem_map_of_mem Prod.snd hpr)
          (hU.sourcesNotDests Q hQ P hP pr.2 hqsrc)
      · subst hTl
        obtain ⟨Q, hQ, hQhist, hQprod⟩ := hinv.linkSource pr.2 t hq
        refine Or.inr ⟨t, rfl,
          hinv.sourcesPresent Q hQ t (List.mem_map_of_mem Prod.fst hQprod), ?_⟩
        intro hts
        have hQP : Q = P := hU.sourcesOwned Q hQ P hP t
          (List.mem_map_of_mem Prod.fst hQprod)
          (hts ▸ List.mem_map_of_mem Prod.fst hpr)
        rw [hQP] at hQhist
        exact hfresh hQhist
  have hsrc : ∀ pr ∈ P.products, fget st.fs pr.1 = some FType.regular ∧
      pr.1 ∉ P.products.map Prod.snd := by
    intro pr hpr
    exact ⟨hinv.sourcesPresent P hP pr.1 (List.mem_map_of_mem Prod.fst hpr),
      hU.sourcesNotDests P hP P hP pr.1 (List.mem_map_of_mem Prod.fst hpr)⟩
  have hnd : (P.products.map Prod.snd).Nodup := hU.destsNodup P hP
  have hchar := linkProducts_char content P.products st.fs hnd hsrc hdst
  have hman : alookup st.manifests P.name = none :=
    hinv.manifestHistory P.name hfresh
  have hPnm : P ∉ st.merged := fun h => hfresh (hinv.mergedHistory P h)
  -- the resulting state, explicitly
  have hldp : link_devel_products content st.fs st.ledger P.products
      (alookup st.manifests P.name) = Except.ok
        (st.fs ++ (P.products.filter
            (fun pr => (fget st.fs pr.2).isNone)).map
            (fun pr => (pr.2, FType.link pr.1)),
         ((P.products.filter (fun pr => (fget st.fs pr.2).isSome)).map
            Prod.snd).foldl addCollision st.ledger,
         P.products,
         (P.products.filter (fun pr =>
            match fget st.fs pr.2 with
            | some (FType.link t) => decide (content pr.1 ≠ content t)
            | _ => false)).map Prod.snd) := by
    unfold link_devel_products
    rw [hchar, hman]
    rfl
  have happ : st' =
      { fs := st.fs ++ (P.products.filter
          (fun pr => (fget st.fs pr.2).isNone)).map
          (fun pr => (pr.2, FType.link pr.1)),
        ledger := ((P.products.filter
          (fun pr => (fget st.fs pr.2).isSome)).map
          Prod.snd).foldl addCollision st.ledger,
        manifests := aset st.manifests P.name P.products,
        merged := st.merged ++ [P],
        history := st.history ++ [P.name] } := by
    unfold applyMerge at hok
    rw [hldp] at hok
    rw [if_neg hPnm, if_neg hfresh] at hok
    exact (Except.ok.inj hok).symm
  subst happ
  -- abbreviations and basic facts
  have hcnodup : ((P.products.filter
      (fun pr => (fget st.fs pr.2).isSome)).map Prod.snd).Nodup :=
    map_snd_filter_nodup P.products _ hnd
  have hmemc : ∀ d : Path,
      d ∈ (P.products.filter (fun pr => (fget st.fs pr.2).isSome)).map
        Prod.snd ↔ (d ∈ P.dests ∧ (fget st.fs d).isSome) := by
    intro d
    constructor
    · intro h
      obtain ⟨pr, hprf, hsnd⟩ := List.mem_map.mp h
      obtain ⟨hpr, hcond⟩ := List.mem_filter.mp hprf
      subst hsnd
      exact ⟨List.mem_map_of_mem Prod.snd hpr, hcond⟩
    · rintro ⟨hd, hsome⟩
      obtain ⟨pr, hpr, rfl⟩ := List.mem_map.mp hd
      exact List.mem_map_of_mem Prod.snd
        (List.mem_filter.mpr ⟨hpr, hsome⟩)
  have hsome_iff : ∀ d ∈ P.dests,
      ((fget st.fs d).isSome = true ↔ 1 ≤ nProducing st.merged d) := by
    intro d hd
    constructor
    · intro hsome
      cases hq : fget st.fs d with
      | none => rw [hq] at hsome; exact Bool.noConfusion hsome
      | some T =>
        rcases hinv.entriesShape d T hq with ⟨_, Q, hQ, hqsrc⟩ | ⟨t, hTl⟩
        · exact absurd hd (hU.sourcesNotDests Q hQ P hP d hqsrc)
        · subst hTl
          exact (hinv.linkIffProduced d).mp ⟨t, hq⟩
    · intro hn
      obtain ⟨t, hq⟩ := (hinv.linkIffProduced d).mpr hn
      rw [hq]
      rfl
  -- lookups in the extended filesystem
  have hfs_fresh : ∀ pr ∈ P.products, fget st.fs pr.2 = none →
      fget (st.fs ++ (P.products.filter
        (fun pr => (fget st.fs pr.2).isNone)).map
        (fun pr => (pr.2, FType.link pr.1))) pr.2 =
        some (FType.link pr.1) := by
    intro pr hpr hnone
    show alookup _ pr.2 = _
    rw [alookup_append_right st.fs _ pr.2 hnone]
    exact alookup_map_snd_key (fun e => FType.link e.1)
      (P.products.filter (fun pr => (fget st.fs pr.2).isNone)) pr
      (List.mem_filter.mpr ⟨hpr, by rw [hnone]; rfl⟩)
      (map_snd_filter_nodup P.products _ hnd)
  have hfs_old : ∀ q : Path, (fget st.fs q).isSome →
      fget (st.fs ++ (P.products.filter
        (fun pr => (fget st.fs pr.2).isNone)).map
        (fun pr => (pr.2, FType.link pr.1))) q = fget st.fs q := by
    intro q hq
    exact alookup_append_left st.fs _ q hq
  have hfs_other : ∀ q : Path, q ∉ P.dests →
      fget (st.fs ++ (P.products.filter
        (fun pr => (fget st.fs pr.2).isNone)).map
        (fun pr => (pr.2, FType.link pr.1))) q = fget st.fs q := by
    intro q hq
    cases hold : fget st.fs q with
    | some T => rw [← hold]; exact hfs_old q (by rw [hold]; rfl)
    | none =>
      show alookup _ q = none
      rw [alookup_append_right st.fs _ q hold]
      cases hnew : alookup ((P.products.filter
          (fun pr => (fget st.fs pr.2).isNone)).map
          (fun pr => (pr.2, FType.link pr.1))) q with
      | none => rfl
      | some T =>
        obtain ⟨pr, hprf, hsnd, _⟩ := alookup_map_snd_link_inv _ q T hnew
        exact absurd (hsnd ▸ List.mem_map_of_mem Prod.snd
          (List.mem_filter.mp hprf).1) hq
  refine ⟨?_, ?_, ?_, ?_, ?_, ?_, ?_, ?_, ?_, ?_⟩
  · -- the ledger invariant
    intro d
    show alookup (((P.products.filter
        (fun pr => (fget st.fs pr.2).isSome)).map Prod.snd).foldl
        addCollision st.ledger) d = _
    rw [show nProducing (st.merged ++ [P]) d =
        nProducing st.merged d + (if d ∈ P.dests then 1 else 0) from
      nProducing_append st.merged P d]
    by_cases hd : d ∈ P.dests
    · rw [if_pos hd]
      by_cases hn : 1 ≤ nProducing st.merged d
      · have hcm := (hmemc d).mpr ⟨hd, (hsome_iff d hd).mpr hn⟩
        rw [(foldl_addCollision_mem _ st.ledger d hcnodup).1 hcm,
          hinv.ledgerInv d]
        by_cases h1 : nProducing st.merged d ≤ 1
        · rw [if_pos h1, if_neg (by omega)]
          have h11 : nProducing st.merged d = 1 := by omega
          rw [h11]
          rfl
        · rw [if_neg h1, if_neg (by omega)]
          simp only [Option.getD_some]
          congr 1
          omega
      · have hz : nProducing st.merged d = 0 := by omega
        have hcm : d ∉ (P.products.filter
            (fun pr => (fget st.fs pr.2).isSome)).map Prod.snd := by
          intro h
          exact hn ((hsome_iff d hd).mp ((hmemc d).mp h).2)
        rw [(foldl_addCollision_mem _ st.ledger d hcnodup).2 hcm,
          hinv.ledgerInv d, hz]
        simp
    · rw [if_neg hd]
      have hcm : d ∉ (P.products.filter
          (fun pr => (fget st.fs pr.2).isSome)).map Prod.snd := by
        intro h
        exact hd ((hmemc d).mp h).1
      rw [(foldl_addCollision_mem _ st.ledger d hcnodup).2 hcm,
        hinv.ledgerInv d, Nat.add_zero]
  · -- a link exists exactly at produced destinations
    intro d
    rw [show nProducing (st.merged ++ [P]) d =
        nProducing st.merged d + (if d ∈ P.dests then 1 else 0) from
      nProducing_append st.merged P d]
    by_cases hd : d ∈ P.dests
    · rw [if_pos hd]
      constructor
      · intro _
        omega
      · intro _
        obtain ⟨pr, hpr, rfl⟩ := List.mem_map.mp hd
        cases hold : fget st.fs pr.2 with
        | none => exact ⟨pr.1, hfs_fresh pr hpr hold⟩
        | some T =>
          rcases hinv.entriesShape pr.2 T hold with ⟨_, Q, hQ, hqsrc⟩ | ⟨t, hTl⟩
          · exact absurd (List.mem_map_of_mem Prod.snd hpr)
              (hU.sourcesNotDests Q hQ P hP pr.2 hqsrc)
          · subst hTl
            exact ⟨t, by rw [hfs_old pr.2 (by rw [hold]; rfl)]; exact hold⟩
    · rw [if_neg hd, Nat.add_zero]
      rw [show (∃ t, fget (st.fs ++ (P.products.filter
          (fun pr => (fget st.fs pr.2).isNone)).map
          (fun pr => (pr.2, FType.link pr.1))) d = some (FType.link t)) ↔
          (∃ t, fget st.fs d = some (FType.link t)) from by
        constructor <;> (rintro ⟨t, ht⟩; exact ⟨t, by
          rw [hfs_other d hd] at * <;> exact ht⟩)]
      exact hinv.linkIffProduced d
  · -- every link points into some ever-merged package's products
    intro d t hq
    cases hold : fget st.fs d with
    | some T =>
      rw [hfs_old d (by rw [hold]; rfl)] at hq
      obtain ⟨Q, hQ, hQh, hQp⟩ := hinv.linkSource d t hq
      exact ⟨Q, hQ, List.mem_append_left _ hQh, hQp⟩
    | none =>
      rw [show fget (st.fs ++ (P.products.filter
          (fun pr => (fget st.fs pr.2).isNone)).map
          (fun pr => (pr.2, FType.link pr.1))) d =
          alookup ((P.products.filter
            (fun pr => (fget st.fs pr.2).isNone)).map
            (fun pr => (pr.2, FType.link pr.1))) d from
        alookup_append_right st.fs _ d hold] at hq
      obtain ⟨pr, hprf, hsnd, hT⟩ := alookup_map_snd_link_inv _ d _ hq
      refine ⟨P, hP, List.mem_append_right _ (List.mem_cons_self _ _), ?_⟩
      have hpr : pr ∈ P.products := (List.mem_filter.mp hprf).1
      have ht : t = pr.1 := by
        have := FType.link.inj hT
        rw [this]
      rw [ht, ← hsnd]
      exact hpr
  · -- all sources remain present
    intro Q hQ s hs
    rw [hfs_other s (hU.sourcesNotDests Q hQ P hP s hs)]
    exact hinv.sourcesPresent Q hQ s hs
  · -- entry shape is preserved
    intro p T hq
    cases hold : fget st.fs p with
    | some T0 =>
      rw [hfs_old p (by rw [hold]; rfl)] at hq
      exact hinv.entriesShape p T hq
    | none =>
      rw [show fget (st.fs ++ (P.products.filter
          (fun pr => (fget st.fs pr.2).isNone)).map
          (fun pr => (pr.2, FType.link pr.1))) p =
          alookup ((P.products.filter
            (fun pr => (fget st.fs pr.2).isNone)).map
            (fun pr => (pr.2, FType.link pr.1))) p from
        alookup_append_right st.fs _ p hold] at hq
      obtain ⟨pr, _, _, hT⟩ := alookup_map_snd_link_inv _ p _ hq
      exact Or.inr ⟨pr.1, hT⟩
  · -- merged packages come from the universe
    intro Q hQ
    rcases List.mem_append.mp hQ with h | h
    · exact hinv.mergedSub Q h
    · rw [List.mem_singleton.mp h]
      exact hP
  · -- merged names stay distinct
    rw [List.map_append]
    refine List.Nodup.append hinv.mergedNamesNodup (List.nodup_singleton _) ?_
    intro a ha hb
    have hab : a = P.name := List.mem_singleton.mp hb
    subst hab
    obtain ⟨Q, hQ, hQn⟩ := List.mem_map.mp ha
    exact hfresh (hQn ▸ hinv.mergedHistory Q hQ)
  · -- merged packages are recorded in the history
    intro Q hQ
    rcases List.mem_append.mp hQ with h | h
    · exact List.mem_append_left _ (hinv.mergedHistory Q h)
    · rw [List.mem_singleton.mp h]
      exact List.mem_append_right _ (List.mem_cons_self _ _)
  · -- manifests of merged packages
    intro Q hQ
    rcases List.mem_append.mp hQ with h | h
    · have hne : Q.name ≠ P.name := by
        intro he
        exact hfresh (he ▸ hinv.mergedHistory Q h)
      rw [alookup_aset_ne st.manifests P.name Q.name P.products hne]
      exact hinv.manifestOfMerged Q h
    · rw [List.mem_singleton.mp h]
      exact alookup_aset_self st.manifests P.name P.products
  · -- absent history means absent manifest
    intro nm hnm
    have h1 : nm ∉ st.history := fun h => hnm (List.mem_append_left _ h)
    have h2 : nm ≠ P.name := fun h =>
      hnm (h ▸ List.mem_append_right _ (List.mem_cons_self _ _))
    rw [alookup_aset_ne st.manifests P.name nm P.products h2]
    exact hinv.manifestHistory nm h1

/-- Unmerging a currently-merged package preserves the full invariant. -/
theorem inv_unmerge (U : List Package) (st : Sys) (P : Package)
    (hU : GoodUniverse U) (hinv : Inv U st) (hP : P ∈ st.merged) :
    Inv U (applyUnmerge st P) := by
  have hPU : P ∈ U := hinv.mergedSub P hP
  have hman : alookup st.manifests P.name = some P.products :=
    hinv.manifestOfMerged P hP
  have hnd : (P.dests).Nodup := hU.destsNodup P hPU
  have hlink : ∀ pr ∈ P.products, ∃ t,
      fget st.fs pr.2 = some (FType.link t) ∧
      fget st.fs t = some FType.regular := by
    intro pr hpr
    have hn : 1 ≤ nProducing st.merged pr.2 :=
      nProducing_pos_of_mem st.merged P pr.2 hP
        (List.mem_map_of_mem Prod.snd hpr)
    obtain ⟨t, ht⟩ := (hinv.linkIffProduced pr.2).mpr hn
    obtain ⟨Q, hQ, _, hQp⟩ := hinv.linkSource pr.2 t ht
    exact ⟨t, ht,
      hinv.sourcesPresent Q hQ t (List.mem_map_of_mem Prod.fst hQp)⟩
  have hex : ∀ pr ∈ P.products, fexists st.fs pr.2 = true := by
    intro pr hpr
    obtain ⟨t, ht, htr⟩ := hlink pr hpr
    unfold fexists
    rw [show fget st.fs pr.2 = some (FType.link t) from ht]
    show (fget st.fs t).isSome = true
    rw [show fget st.fs t = some FType.regular from htr]
    rfl
  have hisl : ∀ pr ∈ P.products, islink st.fs pr.2 = true := by
    intro pr hpr
    obtain ⟨t, ht, _⟩ := hlink pr hpr
    unfold islink
    rw [show fget st.fs pr.2 = some (FType.link t) from ht]
  have hscan : scanManifest st.fs P.products =
      ScanResult.ok [] (P.products.map Prod.snd) := by
    rw [scanManifest_ok_of_good st.fs P.products (fun pr hpr _ => hisl pr hpr)]
    congr 1
    · rw [show P.products.filter (fun pr => !(fexists st.fs pr.2)) = []
          from List.filter_eq_nil_iff.mpr (fun pr hpr => by
            rw [hex pr hpr]; simp)]
      rfl
    · rw [List.filter_eq_self.mpr (fun pr hpr => hex pr hpr)]
  have happ : applyUnmerge st P =
      { fs := (clean_linked_files st.ledger []
          (P.products.map Prod.snd) st.fs false).2,
        ledger := (clean_linked_files st.ledger []
          (P.products.map Prod.snd) st.fs false).1,
        manifests := st.manifests,
        merged := st.merged.filter (fun Q => decide (Q.name ≠ P.name)),
        history := st.history } := by
    unfold applyUnmerge
    simp only [unlink_devel_products, Bool.not_true, Bool.false_eq_true,
      if_false, hman, hscan, if_true]
  rw [happ]
  have hL : ∀ d : Path,
      alookup (clean_linked_files st.ledger []
        (P.products.map Prod.snd) st.fs false).1 d =
      if d ∈ P.dests then cleanOne (alookup st.ledger d)
      else alookup st.ledger d := by
    intro d
    show alookup ((P.products.map Prod.snd).foldl (removeStep false)
      (st.ledger, st.fs)).1 d = _
    exact foldl_removeStep_ledger false (P.products.map Prod.snd)
      st.ledger st.fs hnd d
  have hFS := foldl_removeStep_fs (P.products.map Prod.snd) st.ledger st.fs
    hnd (fun d hd => by
      obtain ⟨pr, hpr, rfl⟩ := List.mem_map.mp hd
      exact hlink pr hpr)
  have hF1 : ∀ d ∈ P.dests,
      fget (clean_linked_files st.ledger []
        (P.products.map Prod.snd) st.fs false).2 d =
      if (alookup st.ledger d).getD 0 = 0 then none else fget st.fs d := by
    intro d hd
    show fget ((P.products.map Prod.snd).foldl (removeStep false)
      (st.ledger, st.fs)).2 d = _
    exact hFS.1 d hd
  have hnd_q : ∀ q : Path, fget st.fs q ≠ some FType.directory := by
    intro q h
    rcases hinv.entriesShape q FType.directory h with ⟨hr, _⟩ | ⟨t, hl⟩
    · exact FType.noConfusion hr
    · exact FType.noConfusion hl
  have hF2 : ∀ q : Path, q ∉ P.dests →
      fget (clean_linked_files st.ledger []
        (P.products.map Prod.snd) st.fs false).2 q = fget st.fs q := by
    intro q hq
    show fget ((P.products.map Prod.snd).foldl (removeStep false)
      (st.ledger, st.fs)).2 q = _
    exact hFS.2 q hq (hnd_q q)
  have hcount := nProducing_filter_name st.merged P hP hinv.mergedNamesNodup
  have hn1 : ∀ d ∈ P.dests, 1 ≤ nProducing st.merged d := by
    intro d hd
    obtain ⟨pr, hpr, rfl⟩ := List.mem_map.mp hd
    exact nProducing_pos_of_mem st.merged P pr.2 hP
      (List.mem_map_of_mem Prod.snd hpr)
  -- the ledger count, before bump, at a destination of P
  have hgetd : ∀ d ∈ P.dests,
      ((alookup st.ledger d).getD 0 = 0 ↔ nProducing st.merged d = 1) := by
    intro d hd
    rw [hinv.ledgerInv d]
    constructor
    · intro h0
      by_cases h1 : nProducing st.merged d ≤ 1
      · have := hn1 d hd
        omega
      · rw [if_neg h1] at h0
        simp only [Option.getD_some] at h0
        omega
    · intro h1
      rw [if_pos (by omega)]
      rfl
  refine ⟨?_, ?_, ?_, ?_, ?_, ?_, ?_, ?_, ?_, ?_⟩
  · intro d
    show alookup (clean_linked_files st.ledger []
      (P.products.map Prod.snd) st.fs false).1 d = _
    rw [hL d, hcount d]
    by_cases hd : d ∈ P.dests
    · rw [if_pos hd, if_pos hd, hinv.ledgerInv d]
      by_cases h1 : nProducing st.merged d ≤ 1
      · have h11 : nProducing st.merged d = 1 := by
          have := hn1 d hd
          omega
        rw [if_pos h1, h11]
        simp [cleanOne]
      · rw [if_neg h1]
        obtain ⟨m, hm⟩ : ∃ m, nProducing st.merged d = m + 2 :=
          ⟨nProducing st.merged d - 2, by omega⟩
        rw [hm]
        cases m with
        | zero => simp [cleanOne]
        | succ m' =>
          show cleanOne (some (m' + 1 + 2 - 1)) = _
          have hmm : m' + 1 + 2 - 1 = m' + 1 + 1 := by omega
          rw [hmm]
          show some (m' + 1) = _
          rw [if_neg (by omega)]
          rfl
    · rw [if_neg hd, if_neg hd, Nat.sub_zero]
      exact hinv.ledgerInv d
  · intro d
    rw [hcount d]
    by_cases hd : d ∈ P.dests
    · rw [if_pos hd]
      rw [hF1 d hd]
      by_cases h0 : (alookup st.ledger d).getD 0 = 0
      · rw [if_pos h0]
        have h11 : nProducing st.merged d = 1 := (hgetd d hd).mp h0
        constructor
        · rintro ⟨t, ht⟩
          exact Option.noConfusion ht
        · intro h
          rw [h11] at h
          omega
      · rw [if_neg h0]
        have h2 : 2 ≤ nProducing st.merged d := by
          rcases Nat.lt_or_ge (nProducing st.merged d) 2 with h | h
          · exact absurd ((hgetd d hd).mpr (by have := hn1 d hd; omega)) h0
          · exact h
        constructor
        · intro _
          omega
        · intro _
          exact (hinv.linkIffProduced d).mpr (by omega)
    · rw [if_neg hd, Nat.sub_zero, hF2 d hd]
      exact hinv.linkIffProduced d
  · intro d t hq
    show ∃ Q ∈ U, Q.name ∈ st.history ∧ (t, d) ∈ Q.products
    by_cases hd : d ∈ P.dests
    · rw [hF1 d hd] at hq
      by_cases h0 : (alookup st.ledger d).getD 0 = 0
      · rw [if_pos h0] at hq
        exact Option.noConfusion hq
      · rw [if_neg h0] at hq
        exact hinv.linkSource d t hq
    · rw [hF2 d hd] at hq
      exact hinv.linkSource d t hq
  · intro Q hQ s hs
    rw [hF2 s (hU.sourcesNotDests Q hQ P hPU s hs)]
    exact hinv.sourcesPresent Q hQ s hs
  · intro p T hq
    by_cases hd : p ∈ P.dests
    · rw [hF1 p hd] at hq
      by_cases h0 : (alookup st.ledger p).getD 0 = 0
      · rw [if_pos h0] at hq
        exact Option.noConfusion hq
      · rw [if_neg h0] at hq
        exact hinv.entriesShape p T hq
    · rw [hF2 p hd] at hq
      exact hinv.entriesShape p T hq
  · intro Q hQ
    exact hinv.mergedSub Q (List.mem_filter.mp hQ).1
  · have hsub : ((st.merged.filter
        (fun Q => decide (Q.name ≠ P.name))).map Package.name).Sublist
        (st.merged.map Package.name) :=
      List.Sublist.map Package.name (List.filter_sublist st.merged)
    exact hinv.mergedNamesNodup.sublist hsub
  · intro Q hQ
    exact hinv.mergedHistory Q (List.mem_filter.mp hQ).1
  · intro Q hQ
    exact hinv.manifestOfMerged Q (List.mem_filter.mp hQ).1
  · intro nm hnm
    exact hinv.manifestHistory nm hnm

/-! Claim C1: the collision-ledger invariant. -/

/-- C1 (counterexample): the ledger invariant does not hold after every
merge.  After merging A, then B (both producing `lib/x.so`), running B's
merge again — an ordinary rebuild — leaves the persisted ledger entry at 2
while only 2 packages are merged, so the invariant would demand
`some (2 - 1) = some 1`, not `some 2`. -/
theorem c1_remerge_breaks_invariant :
    scS3.toOption.map
        (fun st => (alookup st.ledger scD, nProducing st.merged scD)) =
      some (some 2, 2) ∧
    some (2 : Nat) ≠ (if (2 : Nat) ≤ 1 then none else some (2 - 1)) := by
  refine ⟨by rfl, by decide⟩

/-- C1 (amended): over a well-formed package universe, after every merge of
a package that was never merged before in the operation sequence and after
every unmerge of a currently-merged package, the persisted collision ledger
satisfies, for every destination d, `ledger[d] = (number of
currently-merged packages producing d) - 1`, with d absent exactly when
that value would be 0 (or no merged package produces d); re-merging an
already-merged package whose destination collides re-increments the count
and breaks the invariant (see the counterexample). -/
theorem c1_ledger_invariant (U : List Package) (content : Path → Nat)
    (st : Sys) (hU : GoodUniverse U) (hre : Reach U content st) :
    LedgerInv st := by
  suffices h : Inv U st from h.ledgerInv
  induction hre with
  | init => exact inv_init U hU
  | merge hre hP hfresh hok ih =>
    exact inv_merge U content _ _ _ hU ih hP hfresh hok
  | unmerge hre hPm ih =>
    exact inv_unmerge U _ _ hU ih hPm

/-- C1 (witness): the amended invariant at the concrete state reached by
merging package A into an empty merged devel space. -/
theorem c1_ledger_invariant_witness : LedgerInv scAState :=
  c1_ledger_invariant scU scContent scAState
    ⟨by decide, by decide, by decide, by decide⟩
    (@Reach.merge scU scContent (initSys scU) scAState pkgA
      Reach.init (by decide) (by decide) (by rfl))

end Catkin
